import Mathlib

/-!
# LRU-K replacer of `src/buffer/lru_k_replacer.cpp`

A shallow embedding of the replacer and the properties of its four operations, followed by
the register update of `src/primer/hyperloglog.cpp`.

* `size_t` values are natural numbers below `2 ^ 64`; every arithmetic operation of the
  source on them is written with its reduction modulo `2 ^ 64`.
* `std::unordered_map` is an association list.  The order of the list stands for the
  iteration order of the hash map, which C++ leaves unspecified; the reachability relation
  therefore allows the entries to be reordered at any time.
* A call either returns or fails: it throws `bustub::Exception`, or it runs into behaviour
  that C++ leaves undefined (reading `evict_f` before it is assigned, `back()` or
  `pop_back()` on an empty list).  An exception carries the state that the replacer has
  when the exception leaves the method.
* The header `buffer/lru_k_replacer.h` is not among the sources.  The members it
  initialises are taken as follows: a new node is not evictable, `curr_size_` starts at
  zero, and the initial value of `current_timestamp_` is a parameter `t0` of the
  constructor.
* The clock is a 64-bit counter.  The properties that compare timestamps are stated for
  the runs in which it has not wrapped around: `t0 + n < 2 ^ 64` after `n` calls of
  `RecordAccess`, and `t0 + n < INF` where a distance must differ from `INF`.
-/

namespace bustub

/-! ## Data model -/

/-- Frame identifiers.  `frame_id_t` is declared in `common/config.h`, which is not among
the sources; BusTub declares it as `int32_t`.  The replacer only compares identifiers for
equality, so the `2 ^ 32` values of the type are all the model needs. -/
abbrev frame_id_t := Fin 4294967296

/-- Modelled from the spec: `AccessType` is declared in a header that is not among the
sources.  The specification calls it an opaque classification of the access; it is carried
here as the integer value of the enumerator. -/
structure AccessType where
  value : Nat
deriving DecidableEq, Repr

/-- The constant `INF = -1ULL`. -/
def INF : Nat := 2 ^ 64 - 1

deriving instance DecidableEq for Except

/-- The class `LRUKNode`: `history_` has its front at the head of the list. -/
structure LRUKNode where
  history_ : List Nat
  k_ : Nat
  fid_ : frame_id_t
  is_evictable_ : Bool
deriving DecidableEq, Repr

namespace LRUKNode

/-- The constructor `LRUKNode()`. -/
def mk0 : LRUKNode := ⟨[], 0, 0, false⟩

/-- The constructor `LRUKNode(k, fid)`.  The initial value of `is_evictable_` is given in
the header; the specification has "default false on creation". -/
def mk2 (k : Nat) (fid : frame_id_t) : LRUKNode := ⟨[], k, fid, false⟩

/-- The method `size()`. -/
def size (n : LRUKNode) : Nat := n.history_.length

/-- The method `end()`, which is `history_.back()`: `none` on an empty history, where the
behaviour of `back()` is undefined. -/
def end_ (n : LRUKNode) : Option Nat := n.history_.getLast?

/-- The method `getK()`. -/
def getK (n : LRUKNode) : Nat := n.k_

/-- The method `appendFront(t)`. -/
def appendFront (n : LRUKNode) (t : Nat) : LRUKNode := { n with history_ := t :: n.history_ }

/-- The method `pop()`, which is `history_.pop_back()`: `none` on an empty history, where
the behaviour of `pop_back()` is undefined. -/
def pop (n : LRUKNode) : Option LRUKNode :=
  match n.history_ with
  | [] => none
  | _ :: _ => some { n with history_ := n.history_.dropLast }

/-- The method `isEvictable()`. -/
def isEvictable (n : LRUKNode) : Bool := n.is_evictable_

/-- The method `setEvictable(e)`. -/
def setEvictable (n : LRUKNode) (e : Bool) : LRUKNode := { n with is_evictable_ := e }

end LRUKNode

/-- The type of `node_store_`, a `std::unordered_map<frame_id_t, LRUKNode>`. -/
abbrev NodeStore := List (frame_id_t × LRUKNode)

namespace NodeStore

/-- The call `find(frame_id)`; `none` is `end()`. -/
def find : NodeStore → frame_id_t → Option LRUKNode
  | [], _ => none
  | (g, n) :: rest, f => if g = f then some n else find rest f

/-- The call `insert(std::make_pair(frame_id, node))`: no effect when the key is present. -/
def insert (m : NodeStore) (f : frame_id_t) (n : LRUKNode) : NodeStore :=
  match find m f with
  | some _ => m
  | none => m ++ [(f, n)]

/-- The value read through `operator[]`, which default-constructs a missing entry. -/
def get (m : NodeStore) (f : frame_id_t) : LRUKNode :=
  (find m f).getD LRUKNode.mk0

/-- A write through the reference that `operator[]` returned. -/
def set : NodeStore → frame_id_t → LRUKNode → NodeStore
  | [], f, n => [(f, n)]
  | (g, n0) :: rest, f, n => if g = f then (g, n) :: rest else (g, n0) :: set rest f n

/-- The call `erase(frame_id)`. -/
def erase : NodeStore → frame_id_t → NodeStore
  | [], _ => []
  | (g, n) :: rest, f => if g = f then erase rest f else (g, n) :: erase rest f

end NodeStore

/-- The class `LRUKReplacer`. -/
structure LRUKReplacer where
  node_store_ : NodeStore
  current_timestamp_ : Nat
  curr_size_ : Nat
  replacer_size_ : Nat
  k_ : Nat
deriving DecidableEq, Repr

/-- The two ways in which a call can fail to return. -/
inductive Failure where
  /-- The call threw `bustub::Exception` about frame `frame_id`; `state` is the state of
  the replacer when the exception left the method. -/
  | Exception (frame_id : frame_id_t) (state : LRUKReplacer)
  /-- The call ran into behaviour that C++ leaves undefined. -/
  | Undefined
deriving DecidableEq, Repr

/-- The value of an expression whose behaviour may be undefined. -/
def defined {α : Type} : Option α → Except Failure α
  | some a => .ok a
  | none => .error .Undefined

namespace LRUKReplacer

/-- The constructor `LRUKReplacer(num_frames, k)`.  The initial values of `curr_size_` and
of `current_timestamp_` are given in the header, which is not among the sources: the
count starts at zero, as the registry is empty, and the initial clock value `t0` is a
parameter. -/
def new (num_frames k t0 : Nat) : LRUKReplacer := ⟨[], t0, 0, num_frames, k⟩

/-- The state of the local variables `max`, `evict_f` and `last` of `Evict`; `evict_f` is
`none` as long as nothing has been assigned to it. -/
structure Scan where
  max : Nat
  evict_f : Option frame_id_t
  last : Nat
deriving DecidableEq, Repr

/-- One iteration of the loop of `Evict`. -/
def scanStep (k_ current_timestamp_ : Nat) (acc : Scan) (pair : frame_id_t × LRUKNode) :
    Except Failure Scan :=
  let fid := pair.1
  let node := pair.2
  if !node.isEvictable then
    .ok acc
  else do
    let kDist ←
      if node.size = k_ then do
        let e ← defined node.end_
        pure ((current_timestamp_ + 2 ^ 64 - e) % 2 ^ 64)
      else
        pure INF
    if acc.max < kDist then do
      let e ← defined node.end_
      pure { max := kDist, evict_f := some fid, last := e }
    else if kDist = acc.max ∧ acc.max = INF then do
      let e ← defined node.end_
      if acc.last > e then
        pure { acc with evict_f := some fid, last := e }
      else
        pure acc
    else
      pure acc

/-- The loop of `Evict` over the entries of the map. -/
def scan (k_ current_timestamp_ : Nat) : Scan → NodeStore → Except Failure Scan
  | acc, [] => .ok acc
  | acc, pair :: rest =>
    match scanStep k_ current_timestamp_ acc pair with
    | .ok acc1 => scan k_ current_timestamp_ acc1 rest
    | .error e => .error e

/-- The method `Remove(frame_id)`. -/
def Remove (s : LRUKReplacer) (frame_id : frame_id_t) : Except Failure LRUKReplacer :=
  match s.node_store_.find frame_id with
  | none => .ok s
  | some node =>
    if !node.isEvictable then
      .error (.Exception frame_id s)
    else
      .ok { s with
        node_store_ := s.node_store_.erase frame_id
        curr_size_ := (s.curr_size_ + 2 ^ 64 - 1) % 2 ^ 64 }

/-- The method `Evict()`: the result and the state after the call. -/
def Evict (s : LRUKReplacer) : Except Failure (Option frame_id_t × LRUKReplacer) :=
  if s.curr_size_ = 0 then
    .ok (none, s)
  else
    match scan s.k_ s.current_timestamp_ { max := 0, evict_f := none, last := INF }
        s.node_store_ with
    | .error e => .error e
    | .ok acc =>
      match acc.evict_f with
      | none => .error .Undefined
      | some evict_f =>
        match s.Remove evict_f with
        | .error e => .error e
        | .ok s1 => .ok (some evict_f, s1)

/-- The method `RecordAccess(frame_id, access_type)`. -/
def RecordAccess (s : LRUKReplacer) (frame_id : frame_id_t) (_access_type : AccessType) :
    Except Failure LRUKReplacer :=
  let store :=
    match s.node_store_.find frame_id with
    | none => s.node_store_.insert frame_id (LRUKNode.mk2 s.k_ frame_id)
    | some _ => s.node_store_
  let node := store.get frame_id
  match (if node.size = s.k_ then defined node.pop else .ok node) with
  | .error e => .error e
  | .ok node1 =>
    .ok { s with
      node_store_ := store.set frame_id (node1.appendFront s.current_timestamp_)
      current_timestamp_ := (s.current_timestamp_ + 1) % 2 ^ 64 }

/-- The method `SetEvictable(frame_id, set_evictable)`. -/
def SetEvictable (s : LRUKReplacer) (frame_id : frame_id_t) (set_evictable : Bool) :
    LRUKReplacer :=
  match s.node_store_.find frame_id with
  | none => s
  | some node =>
    if xor set_evictable node.isEvictable then
      { s with
        curr_size_ := (s.curr_size_ + (if set_evictable = true then 1 else 2 ^ 64 - 1)) % 2 ^ 64
        node_store_ := s.node_store_.set frame_id (node.setEvictable set_evictable) }
    else
      s

/-- The method `Size()`. -/
def Size (s : LRUKReplacer) : Nat := s.curr_size_

end LRUKReplacer

/-! ## Reachable states -/

/-- The states of a replacer constructed with `num_frames`, `k` and initial clock `t0` after
some calls of its methods, `n` of which were calls of `RecordAccess`.  A call that throws
leaves the state as it was, and a call with undefined behaviour has no state after it.  The
rule `rehash` lets the entries of the map change their iteration order. -/
inductive Reachable (num_frames k t0 : Nat) : Nat → LRUKReplacer → Prop where
  | new : Reachable num_frames k t0 0 (LRUKReplacer.new num_frames k t0)
  | RecordAccess {n : Nat} {s s1 : LRUKReplacer} (frame_id : frame_id_t)
      (access_type : AccessType) :
      Reachable num_frames k t0 n s → s.RecordAccess frame_id access_type = .ok s1 →
      Reachable num_frames k t0 (n + 1) s1
  | SetEvictable {n : Nat} {s : LRUKReplacer} (frame_id : frame_id_t) (set_evictable : Bool) :
      Reachable num_frames k t0 n s →
      Reachable num_frames k t0 n (s.SetEvictable frame_id set_evictable)
  | Evict {n : Nat} {s s1 : LRUKReplacer} {r : Option frame_id_t} :
      Reachable num_frames k t0 n s → s.Evict = .ok (r, s1) →
      Reachable num_frames k t0 n s1
  | Remove {n : Nat} {s s1 : LRUKReplacer} (frame_id : frame_id_t) :
      Reachable num_frames k t0 n s → s.Remove frame_id = .ok s1 →
      Reachable num_frames k t0 n s1
  | rehash {n : Nat} {s : LRUKReplacer} (store : NodeStore) :
      Reachable num_frames k t0 n s → store.Perm s.node_store_ →
      Reachable num_frames k t0 n { s with node_store_ := store }

/-- A call of one of the four methods that change the replacer. -/
inductive Call where
  | RecordAccess (frame_id : frame_id_t) (access_type : AccessType)
  | SetEvictable (frame_id : frame_id_t) (set_evictable : Bool)
  | Evict
  | Remove (frame_id : frame_id_t)
deriving DecidableEq, Repr

/-- The state of the replacer after a call: after a call that throws it is the state at
the throw, and a call with undefined behaviour has no state after it. -/
def LRUKReplacer.call (s : LRUKReplacer) : Call → Except Failure LRUKReplacer
  | .RecordAccess frame_id access_type => s.RecordAccess frame_id access_type
  | .SetEvictable frame_id set_evictable => .ok (s.SetEvictable frame_id set_evictable)
  | .Evict =>
    match s.Evict with
    | .ok (_, s1) => .ok s1
    | .error (.Exception _ state) => .ok state
    | .error .Undefined => .error .Undefined
  | .Remove frame_id =>
    match s.Remove frame_id with
    | .ok s1 => .ok s1
    | .error (.Exception _ state) => .ok state
    | .error .Undefined => .error .Undefined

/-- The state of the replacer after a sequence of calls. -/
def LRUKReplacer.run (s : LRUKReplacer) : List Call → Except Failure LRUKReplacer
  | [] => .ok s
  | c :: rest =>
    match s.call c with
    | .ok s1 => s1.run rest
    | .error e => .error e

/-- The number of calls of `RecordAccess` in a sequence of calls. -/
def accessCount : List Call → Nat
  | [] => 0
  | .RecordAccess _ _ :: rest => accessCount rest + 1
  | _ :: rest => accessCount rest

/-! ## Vocabulary of the properties -/

/-- The frame identifiers of the entries of the map, in iteration order. -/
def NodeStore.keys (m : NodeStore) : List frame_id_t := m.map Prod.fst

/-- The number of entries of the map whose evictable flag is true. -/
def NodeStore.evictableCount (m : NodeStore) : Nat := m.countP (fun p => p.2.is_evictable_)

/-- A frame is tracked when the map has an entry for it. -/
def LRUKReplacer.Tracked (s : LRUKReplacer) (f : frame_id_t) : Prop :=
  s.node_store_.find f ≠ none

instance (s : LRUKReplacer) (f : frame_id_t) : Decidable (s.Tracked f) := by
  unfold LRUKReplacer.Tracked; infer_instance

/-- The invariant of the data model that does not depend on the clock: the entries of the
map have distinct keys, `curr_size_` counts the evictable entries, the history depth is the
one given at construction, and every history is non-empty and holds at most `k` entries. -/
structure WellFormed (k : Nat) (s : LRUKReplacer) : Prop where
  keys_nodup : s.node_store_.keys.Nodup
  size_eq : s.curr_size_ = s.node_store_.evictableCount
  k_eq : s.k_ = k
  history_ne : ∀ p ∈ s.node_store_, p.2.history_ ≠ []
  history_le : ∀ p ∈ s.node_store_, p.2.history_.length ≤ k

/-- The invariant that depends on the clock, for a state reached with `n` calls of
`RecordAccess` from the initial clock value `t0`: the clock has not wrapped around, every
recorded timestamp is older than the clock, every history is strictly decreasing from front
to back, and no timestamp occurs in the histories of two frames. -/
structure Stamped (t0 n : Nat) (s : LRUKReplacer) : Prop where
  clock_eq : s.current_timestamp_ = t0 + n
  stamp_lt : ∀ p ∈ s.node_store_, ∀ t ∈ p.2.history_, t < s.current_timestamp_
  decreasing : ∀ p ∈ s.node_store_, p.2.history_.Pairwise (fun a b => b < a)
  unique : ∀ p ∈ s.node_store_, ∀ q ∈ s.node_store_, ∀ t,
    t ∈ p.2.history_ → t ∈ q.2.history_ → p.1 = q.1

/-- The value of `kDist` in the loop of `Evict` for a node whose oldest timestamp is `e`. -/
def LRUKReplacer.kDist (k_ current_timestamp_ : Nat) (node : LRUKNode) (e : Nat) : Nat :=
  if node.size = k_ then (current_timestamp_ + 2 ^ 64 - e) % 2 ^ 64 else INF

/-- What the loop of `Evict` has established when it has gone through the entries `seen`:
as long as no evictable entry was seen nothing is assigned; afterwards `evict_f`, `max` and
`last` are the key, the distance and the oldest timestamp of a seen evictable entry, no seen
evictable entry has a greater distance, and none with the distance `INF` has an older
oldest timestamp. -/
structure LRUKReplacer.ScanInv (k_ current_timestamp_ : Nat) (seen : NodeStore)
    (acc : LRUKReplacer.Scan) : Prop where
  unassigned : acc.evict_f = none →
    acc.max = 0 ∧ ∀ p ∈ seen, p.2.is_evictable_ = false
  max_le : acc.max ≤ INF
  assigned : ∀ x, acc.evict_f = some x →
    ∃ node e, (x, node) ∈ seen ∧ node.is_evictable_ = true ∧ node.end_ = some e ∧
      acc.max = LRUKReplacer.kDist k_ current_timestamp_ node e ∧ acc.last = e
  bound : ∀ q ∈ seen, q.2.is_evictable_ = true → ∀ e, q.2.end_ = some e →
    LRUKReplacer.kDist k_ current_timestamp_ q.2 e ≤ acc.max ∧
      (LRUKReplacer.kDist k_ current_timestamp_ q.2 e = INF → acc.last ≤ e)

/-- The history of a frame: the timestamps of its record, most recent first, and the empty
list for a frame that is not tracked. -/
def LRUKReplacer.historyOf (s : LRUKReplacer) (f : frame_id_t) : List Nat :=
  ((s.node_store_.find f).map LRUKNode.history_).getD []

/-- The reachable states together with the access log of every frame: the timestamps of the
calls of `RecordAccess` for the frame since it was last tracked anew, most recent first.
The log of a frame is emptied when `Remove` or `Evict` erases its record. -/
inductive Logged (num_frames k t0 : Nat) : LRUKReplacer → (frame_id_t → List Nat) → Prop where
  | new : Logged num_frames k t0 (LRUKReplacer.new num_frames k t0) (fun _ => [])
  | RecordAccess {s s1 : LRUKReplacer} {log : frame_id_t → List Nat} (frame_id : frame_id_t)
      (access_type : AccessType) :
      Logged num_frames k t0 s log → s.RecordAccess frame_id access_type = .ok s1 →
      Logged num_frames k t0 s1
        (Function.update log frame_id (s.current_timestamp_ :: log frame_id))
  | SetEvictable {s : LRUKReplacer} {log : frame_id_t → List Nat} (frame_id : frame_id_t)
      (set_evictable : Bool) :
      Logged num_frames k t0 s log →
      Logged num_frames k t0 (s.SetEvictable frame_id set_evictable) log
  | Evict_none {s s1 : LRUKReplacer} {log : frame_id_t → List Nat} :
      Logged num_frames k t0 s log → s.Evict = .ok (none, s1) →
      Logged num_frames k t0 s1 log
  | Evict_some {s s1 : LRUKReplacer} {log : frame_id_t → List Nat} {x : frame_id_t} :
      Logged num_frames k t0 s log → s.Evict = .ok (some x, s1) →
      Logged num_frames k t0 s1 (Function.update log x [])
  | Remove {s s1 : LRUKReplacer} {log : frame_id_t → List Nat} (frame_id : frame_id_t) :
      Logged num_frames k t0 s log → s.Remove frame_id = .ok s1 →
      Logged num_frames k t0 s1 (Function.update log frame_id [])
  | rehash {s : LRUKReplacer} {log : frame_id_t → List Nat} (store : NodeStore) :
      Logged num_frames k t0 s log → store.Perm s.node_store_ →
      Logged num_frames k t0 { s with node_store_ := store } log

/-- The k-distance of the specification: a number of clock ticks, or unbounded. -/
inductive KDistance where
  | Finite (distance : Nat)
  | Unbounded
deriving DecidableEq, Repr

/-- The order of k-distances, in which `Unbounded` is the greatest. -/
def KDistance.le : KDistance → KDistance → Prop
  | _, .Unbounded => True
  | .Finite a, .Finite b => a ≤ b
  | .Unbounded, .Finite _ => False

/-- The k-distance of a frame in the words of the specification: the current clock minus the
oldest timestamp of the window when the history holds exactly `k` timestamps, and unbounded
otherwise.  (A history of exactly `k = 0` timestamps has no oldest one; the specification
has `k ≥ 1`.) -/
def specKDistance (k clock : Nat) (node : LRUKNode) : KDistance :=
  if node.history_.length = k then
    match node.history_.getLast? with
    | some oldest => .Finite (clock - oldest)
    | none => .Unbounded
  else
    .Unbounded

/-- The tie-break in the words of the specification: `Evict` returns an evictable frame with
fewer than `k` recorded accesses whose most recent (front) timestamp is the smallest among
the evictable frames with fewer than `k` recorded accesses. -/
def EvictsSmallestFront (k : Nat) (s : LRUKReplacer) : Prop :=
  ∃ x nodex s1, s.Evict = .ok (some x, s1) ∧ s.node_store_.find x = some nodex ∧
    nodex.is_evictable_ = true ∧ nodex.history_.length < k ∧
    ∀ g nodeg, s.node_store_.find g = some nodeg → nodeg.is_evictable_ = true →
      nodeg.history_.length < k →
      ∀ tx tg, nodex.history_.head? = some tx → nodeg.history_.head? = some tg → tx ≤ tg

/-- A call without its access hint: the hint of `RecordAccess` is replaced by a fixed
value. -/
def Call.dropHint : Call → Call
  | .RecordAccess frame_id _ => .RecordAccess frame_id ⟨0⟩
  | c => c

/-! ## The registers of `src/primer/hyperloglog.cpp` -/

/-- The macro `BITSET_CAPACITY` of `primer/hyperloglog.h`, which is not among the sources:
the number of bits of a hash, 64. -/
def BITSET_CAPACITY : Nat := 64

/-- The class `HyperLogLog`, with the members that `AddElem` uses.  A bitset is the natural
number whose binary digits it holds; the registers are 64-bit unsigned values. -/
structure HyperLogLog where
  n_bits_ : Nat
  buckets_ : List Nat
  cardinality_ : Nat
deriving DecidableEq, Repr

namespace HyperLogLog

/-- The constructor `HyperLogLog(n_bits)`: the registers are `1 << n_bits_` zeros.  The
shift is one of the `int` 1, which is defined for `n_bits_ < 31`; there is no object
otherwise. -/
def new (n_bits : Int) : Option HyperLogLog :=
  let n_bits_ := if n_bits > 0 then n_bits.toNat else 0
  if n_bits_ < 31 then some ⟨n_bits_, List.replicate (2 ^ n_bits_) 0, 0⟩ else none

/-- The method `ComputeBinary(hash)`. -/
def ComputeBinary (hash : Nat) : Nat := hash

/-- The loop of `PositionOfLeftmostOne`, about to test the bits `i - 1`, …, `0`. -/
def leftmostFrom (bset : Nat) : Nat → Nat
  | 0 => 0
  | i + 1 => if bset.testBit i then BITSET_CAPACITY - i else leftmostFrom bset i

/-- The method `PositionOfLeftmostOne(bset)`: the loop starts at the bit
`BITSET_CAPACITY - 1 - n_bits_`. -/
def PositionOfLeftmostOne (n_bits_ : Nat) (bset : Nat) : Nat :=
  leftmostFrom bset (BITSET_CAPACITY - n_bits_)

/-- The value `msb - n_bits_` that `AddElem` offers to a register for the hash `h`, a
difference of 64-bit unsigned values. -/
def offered (n_bits_ : Nat) (h : Nat) : Nat :=
  (PositionOfLeftmostOne n_bits_ (ComputeBinary h) + 2 ^ 64 - n_bits_) % 2 ^ 64

/-- The register that `AddElem` selects for the hash `h`: its top `n_bits_` bits. -/
def register_id (n_bits_ : Nat) (h : Nat) : Nat :=
  if n_bits_ = 0 then 0 else h >>> (BITSET_CAPACITY - n_bits_)

/-- The method `AddElem(val)`, for the value `val` whose hash `CalculateHash(val)` is `h`;
`CalculateHash` is defined in the header.  An index outside the registers would be
undefined behaviour: `none`. -/
def AddElem (hll : HyperLogLog) (h : Nat) : Option HyperLogLog :=
  match hll.buckets_.get? (register_id hll.n_bits_ h) with
  | none => none
  | some r =>
    some { hll with
      buckets_ := hll.buckets_.set (register_id hll.n_bits_ h)
        (max r (offered hll.n_bits_ h)) }

end HyperLogLog

/-! ## Example runs -/

/-- Two accesses and one flag change on a replacer with `k = 2`. -/
def demoCalls : List Call :=
  [.RecordAccess 1 ⟨0⟩, .RecordAccess 2 ⟨0⟩, .SetEvictable 1 true]

/-- The state after `demoCalls` on `LRUKReplacer.new 7 2 0`. -/
def demoState : LRUKReplacer :=
  ⟨[(1, ⟨[0], 2, 1, true⟩), (2, ⟨[1], 2, 2, false⟩)], 2, 1, 7, 2⟩

/-- The calls of scenario B: frame `A` is accessed first and third, frame `B` second and
fourth, and both are made evictable. -/
def scenarioB (A B : frame_id_t) : List Call :=
  [.RecordAccess A ⟨0⟩, .RecordAccess B ⟨0⟩, .RecordAccess A ⟨0⟩, .RecordAccess B ⟨0⟩,
    .SetEvictable A true, .SetEvictable B true]

/-- The state after `scenarioB 1 2` on `LRUKReplacer.new 7 2 0`. -/
def stateB : LRUKReplacer :=
  ⟨[(1, ⟨[2, 0], 2, 1, true⟩), (2, ⟨[3, 1], 2, 2, true⟩)], 4, 2, 7, 2⟩

/-- The access log of `demoState`. -/
def demoLog : frame_id_t → List Nat :=
  Function.update (Function.update (fun _ => []) 1 [0]) 2 [1]

/-- The calls of scenario A: single accesses to frames 1, 2 and 3, in that order, and all
three made evictable. -/
def scenarioA : List Call :=
  [.RecordAccess 1 ⟨0⟩, .RecordAccess 2 ⟨0⟩, .RecordAccess 3 ⟨0⟩,
    .SetEvictable 1 true, .SetEvictable 2 true, .SetEvictable 3 true]

/-- The state after `scenarioA` on `LRUKReplacer.new 7 2 0`. -/
def stateA : LRUKReplacer :=
  ⟨[(1, ⟨[0], 2, 1, true⟩), (2, ⟨[1], 2, 2, true⟩), (3, ⟨[2], 2, 3, true⟩)], 3, 3, 7, 2⟩

/-- With `k = 3`: frame 0 is accessed first and fourth, frame 1 second and third, and both
are made evictable. -/
def frontCalls : List Call :=
  [.RecordAccess 0 ⟨0⟩, .RecordAccess 1 ⟨0⟩, .RecordAccess 1 ⟨0⟩, .RecordAccess 0 ⟨0⟩,
    .SetEvictable 0 true, .SetEvictable 1 true]

/-- The state after `frontCalls` on `LRUKReplacer.new 7 3 0`. -/
def frontState : LRUKReplacer :=
  ⟨[(0, ⟨[3, 0], 3, 0, true⟩), (1, ⟨[2, 1], 3, 1, true⟩)], 4, 2, 7, 3⟩

/-! ## The map operations -/

namespace NodeStore

theorem find_eq_none_iff (m : NodeStore) (f : frame_id_t) : m.find f = none ↔ f ∉ m.keys := by
  induction m with
  | nil => simp [find, keys]
  | cons p rest ih =>
    obtain ⟨g, n⟩ := p
    by_cases h : g = f
    · simp [find, keys, h]
    · have h2 : ¬ f = g := fun e => h e.symm
      simpa [find, keys, h, h2] using ih

theorem mem_of_find_eq_some {m : NodeStore} {f : frame_id_t} {n : LRUKNode}
    (h : m.find f = some n) : (f, n) ∈ m := by
  induction m with
  | nil => simp [find] at h
  | cons p rest ih =>
    obtain ⟨g, n0⟩ := p
    by_cases hg : g = f
    · simp [find, hg] at h
      simp [hg, h]
    · simp [find, hg] at h
      exact List.mem_cons_of_mem _ (ih h)

theorem find_eq_some_of_mem {m : NodeStore} {f : frame_id_t} {n : LRUKNode}
    (hnd : m.keys.Nodup) (h : (f, n) ∈ m) : m.find f = some n := by
  induction m with
  | nil => simp at h
  | cons p rest ih =>
    obtain ⟨g, n0⟩ := p
    simp only [keys, List.map_cons, List.nodup_cons] at hnd
    rcases List.mem_cons.1 h with h1 | h1
    · cases h1
      simp [find]
    · have hne : g ≠ f := by
        rintro rfl
        exact hnd.1 (List.mem_map_of_mem Prod.fst h1)
      simp only [find, hne, if_false]
      exact ih hnd.2 h1

theorem find_perm {m m1 : NodeStore} (hnd : m.keys.Nodup) (hp : m1.Perm m) (f : frame_id_t) :
    m1.find f = m.find f := by
  have hnd1 : m1.keys.Nodup := (List.Perm.map Prod.fst hp).nodup_iff.2 hnd
  cases h : m.find f with
  | none =>
    rw [find_eq_none_iff] at h ⊢
    intro hm
    exact h ((List.Perm.map Prod.fst hp).mem_iff.1 hm)
  | some n =>
    exact find_eq_some_of_mem hnd1 (hp.mem_iff.2 (mem_of_find_eq_some h))

theorem find_set_self (m : NodeStore) (f : frame_id_t) (n : LRUKNode) :
    (m.set f n).find f = some n := by
  induction m with
  | nil => simp [set, find]
  | cons p rest ih =>
    obtain ⟨g, n0⟩ := p
    by_cases hg : g = f
    · simp [set, find, hg]
    · simp [set, find, hg, ih]

theorem find_set_ne (m : NodeStore) {f g : frame_id_t} (n : LRUKNode) (h : g ≠ f) :
    (m.set f n).find g = m.find g := by
  induction m with
  | nil =>
    have h2 : ¬ f = g := fun e => h e.symm
    simp [set, find, h2]
  | cons p rest ih =>
    obtain ⟨g0, n0⟩ := p
    by_cases hg : g0 = f
    · subst hg
      have h2 : ¬ g0 = g := fun e => h e.symm
      simp [set, find, h2]
    · by_cases hg2 : g0 = g
      · subst hg2
        simp [set, find, hg]
      · simp [set, find, hg, hg2, ih]

theorem keys_set_of_mem (m : NodeStore) {f : frame_id_t} (n : LRUKNode) (h : f ∈ m.keys) :
    (m.set f n).keys = m.keys := by
  induction m with
  | nil => simp [keys] at h
  | cons p rest ih =>
    obtain ⟨g, n0⟩ := p
    by_cases hg : g = f
    · simp [set, keys, hg]
    · have h1 : f ∈ keys rest := by
        simp only [keys, List.map_cons, List.mem_cons] at h
        rcases h with h | h
        · exact absurd h.symm hg
        · exact h
      have := ih h1
      simp only [keys] at this
      simp [set, keys, hg, this]

theorem mem_set {m : NodeStore} {f : frame_id_t} {n : LRUKNode} {p : frame_id_t × LRUKNode}
    (hnd : m.keys.Nodup) (h : p ∈ m.set f n) : p = (f, n) ∨ (p ∈ m ∧ p.1 ≠ f) := by
  induction m with
  | nil => simp [set] at h; exact Or.inl h
  | cons q rest ih =>
    obtain ⟨g, n0⟩ := q
    simp only [keys, List.map_cons, List.nodup_cons] at hnd
    by_cases hg : g = f
    · subst hg
      simp only [set, if_true, List.mem_cons] at h
      rcases h with h | h
      · exact Or.inl h
      · refine Or.inr ⟨List.mem_cons_of_mem _ h, ?_⟩
        intro hp
        exact hnd.1 (hp ▸ List.mem_map_of_mem Prod.fst h)
    · simp only [set, hg, if_false, List.mem_cons] at h
      rcases h with h | h
      · subst h
        exact Or.inr ⟨List.mem_cons_self _ _, hg⟩
      · rcases ih hnd.2 h with h1 | h1
        · exact Or.inl h1
        · exact Or.inr ⟨List.mem_cons_of_mem _ h1.1, h1.2⟩

theorem mem_set_self {m : NodeStore} {f : frame_id_t} {n : LRUKNode} : (f, n) ∈ m.set f n :=
  mem_of_find_eq_some (find_set_self m f n)

theorem find_append_self {m : NodeStore} {f : frame_id_t} (n : LRUKNode)
    (h : m.find f = none) : (m ++ [(f, n)]).find f = some n := by
  induction m with
  | nil => simp [find]
  | cons q rest ih =>
    obtain ⟨g, n0⟩ := q
    by_cases hg : g = f
    · simp [find, hg] at h
    · simp only [find, hg, if_false] at h
      simp [find, hg, ih h]

theorem set_append_self {m : NodeStore} {f : frame_id_t} (n0 n : LRUKNode)
    (h : m.find f = none) : (m ++ [(f, n0)]).set f n = m ++ [(f, n)] := by
  induction m with
  | nil => simp [set]
  | cons q rest ih =>
    obtain ⟨g, n1⟩ := q
    by_cases hg : g = f
    · simp [find, hg] at h
    · simp only [find, hg, if_false] at h
      simp [set, hg, ih h]

theorem find_append_ne (m : NodeStore) {f g : frame_id_t} (n : LRUKNode) (h : g ≠ f) :
    (m ++ [(f, n)]).find g = m.find g := by
  induction m with
  | nil =>
    have h2 : ¬ f = g := fun e => h e.symm
    simp [find, h2]
  | cons q rest ih =>
    obtain ⟨g0, n0⟩ := q
    by_cases hg : g0 = g
    · simp [find, hg]
    · simp [find, hg, ih]

theorem evictableCount_set {m : NodeStore} {f : frame_id_t} {n0 : LRUKNode} (n : LRUKNode)
    (h : m.find f = some n0) :
    (m.set f n).evictableCount + (if n0.is_evictable_ then 1 else 0)
      = m.evictableCount + (if n.is_evictable_ then 1 else 0) := by
  induction m with
  | nil => simp [find] at h
  | cons q rest ih =>
    obtain ⟨g, n1⟩ := q
    by_cases hg : g = f
    · simp only [find, hg, if_true, Option.some.injEq] at h
      subst h
      simp only [set, hg, if_true, evictableCount, List.countP_cons]
      omega
    · simp only [find, hg, if_false] at h
      have := ih h
      simp only [evictableCount] at this
      simp only [set, hg, if_false, evictableCount, List.countP_cons]
      omega

theorem mem_erase {m : NodeStore} {f : frame_id_t} {p : frame_id_t × LRUKNode} :
    p ∈ m.erase f ↔ p ∈ m ∧ p.1 ≠ f := by
  induction m with
  | nil => simp [erase]
  | cons q rest ih =>
    obtain ⟨g, n0⟩ := q
    by_cases hg : g = f
    · subst hg
      simp only [erase, if_true, ih, List.mem_cons]
      constructor
      · rintro ⟨h1, h2⟩
        exact ⟨Or.inr h1, h2⟩
      · rintro ⟨h1 | h1, h2⟩
        · exact absurd (congrArg Prod.fst h1) h2
        · exact ⟨h1, h2⟩
    · simp only [erase, hg, if_false, List.mem_cons, ih]
      constructor
      · rintro (h1 | ⟨h1, h2⟩)
        · exact ⟨Or.inl h1, by rw [h1]; exact hg⟩
        · exact ⟨Or.inr h1, h2⟩
      · rintro ⟨h1 | h1, h2⟩
        · exact Or.inl h1
        · exact Or.inr ⟨h1, h2⟩

theorem erase_sublist (m : NodeStore) (f : frame_id_t) : List.Sublist (m.erase f) m := by
  induction m with
  | nil => simp [erase]
  | cons q rest ih =>
    obtain ⟨g, n0⟩ := q
    by_cases hg : g = f
    · simp only [erase, hg, if_true]
      exact List.Sublist.cons _ ih
    · simp only [erase, hg, if_false]
      exact List.Sublist.cons₂ _ ih

theorem find_erase_self (m : NodeStore) (f : frame_id_t) : (m.erase f).find f = none := by
  rw [find_eq_none_iff]
  intro h
  obtain ⟨p, hp, hpf⟩ := List.mem_map.1 h
  exact (mem_erase.1 hp).2 hpf

theorem find_erase_ne (m : NodeStore) {f g : frame_id_t} (h : g ≠ f) :
    (m.erase f).find g = m.find g := by
  induction m with
  | nil => simp [erase, find]
  | cons q rest ih =>
    obtain ⟨g0, n0⟩ := q
    by_cases hg : g0 = f
    · subst hg
      have h2 : ¬ g0 = g := fun e => h e.symm
      simp [erase, find, h2, ih]
    · by_cases hg2 : g0 = g
      · subst hg2
        simp [erase, find, hg]
      · simp [erase, find, hg, hg2, ih]

theorem keys_erase_nodup {m : NodeStore} (f : frame_id_t) (h : m.keys.Nodup) :
    (m.erase f).keys.Nodup :=
  List.Nodup.sublist (List.Sublist.map Prod.fst (erase_sublist m f)) h

theorem erase_eq_self {m : NodeStore} {f : frame_id_t} (h : f ∉ m.keys) : m.erase f = m := by
  induction m with
  | nil => simp [erase]
  | cons q rest ih =>
    obtain ⟨g, n0⟩ := q
    simp only [keys, List.map_cons, List.mem_cons, not_or] at h
    have hg : ¬ g = f := fun e => h.1 e.symm
    simp only [erase, hg, if_false]
    rw [ih h.2]

theorem evictableCount_erase {m : NodeStore} {f : frame_id_t} {n0 : LRUKNode}
    (hnd : m.keys.Nodup) (h : m.find f = some n0) :
    (m.erase f).evictableCount + (if n0.is_evictable_ then 1 else 0) = m.evictableCount := by
  induction m with
  | nil => simp [find] at h
  | cons q rest ih =>
    obtain ⟨g, n1⟩ := q
    simp only [keys, List.map_cons, List.nodup_cons] at hnd
    by_cases hg : g = f
    · simp only [find, hg, if_true, Option.some.injEq] at h
      subst h
      subst hg
      simp only [erase, if_true]
      rw [erase_eq_self hnd.1]
      simp only [evictableCount, List.countP_cons]
    · simp only [find, hg, if_false] at h
      have := ih hnd.2 h
      simp only [evictableCount] at this
      simp only [erase, hg, if_false, evictableCount, List.countP_cons]
      omega

theorem length_le (m : NodeStore) (h : m.keys.Nodup) : m.length ≤ 4294967296 := by
  have h1 := List.Nodup.length_le_card h
  rw [Fintype.card_fin] at h1
  rw [keys, List.length_map] at h1
  exact h1

theorem evictableCount_le (m : NodeStore) : m.evictableCount ≤ m.length :=
  List.countP_le_length _

end NodeStore

/-! ## The invariant that does not depend on the clock -/

namespace LRUKReplacer

theorem Remove_of_not_tracked {s : LRUKReplacer} {f : frame_id_t}
    (h : s.node_store_.find f = none) : s.Remove f = .ok s := by
  simp [Remove, h]

theorem Remove_of_evictable {s : LRUKReplacer} {f : frame_id_t} {node : LRUKNode}
    (h : s.node_store_.find f = some node) (he : node.is_evictable_ = true) :
    s.Remove f = .ok { s with
      node_store_ := s.node_store_.erase f
      curr_size_ := (s.curr_size_ + 2 ^ 64 - 1) % 2 ^ 64 } := by
  simp [Remove, h, LRUKNode.isEvictable, he]

theorem Remove_of_not_evictable {s : LRUKReplacer} {f : frame_id_t} {node : LRUKNode}
    (h : s.node_store_.find f = some node) (he : node.is_evictable_ = false) :
    s.Remove f = .error (.Exception f s) := by
  simp [Remove, h, LRUKNode.isEvictable, he]

/-- The three ways in which `Remove` returns. -/
theorem Remove_cases (s : LRUKReplacer) (f : frame_id_t) :
    (s.node_store_.find f = none ∧ s.Remove f = .ok s) ∨
    (∃ node, s.node_store_.find f = some node ∧ node.is_evictable_ = false ∧
      s.Remove f = .error (.Exception f s)) ∨
    (∃ node, s.node_store_.find f = some node ∧ node.is_evictable_ = true ∧
      s.Remove f = .ok { s with
        node_store_ := s.node_store_.erase f
        curr_size_ := (s.curr_size_ + 2 ^ 64 - 1) % 2 ^ 64 }) := by
  cases h : s.node_store_.find f with
  | none => exact Or.inl ⟨rfl, Remove_of_not_tracked h⟩
  | some node =>
    cases he : node.is_evictable_ with
    | false => exact Or.inr (Or.inl ⟨node, rfl, he, Remove_of_not_evictable h he⟩)
    | true => exact Or.inr (Or.inr ⟨node, rfl, he, Remove_of_evictable h he⟩)

/-- What `Evict` returns is either nothing, with the state as it was, or a frame, with the
state that `Remove` of that frame returns. -/
theorem Evict_cases {s s1 : LRUKReplacer} {r : Option frame_id_t} (h : s.Evict = .ok (r, s1)) :
    (r = none ∧ s1 = s ∧ s.curr_size_ = 0) ∨
    (∃ f, r = some f ∧ s.curr_size_ ≠ 0 ∧ s.Remove f = .ok s1 ∧
      ∃ acc, scan s.k_ s.current_timestamp_ { max := 0, evict_f := none, last := INF }
        s.node_store_ = .ok acc ∧ acc.evict_f = some f) := by
  unfold Evict at h
  by_cases h0 : s.curr_size_ = 0
  · simp only [h0, if_true, Except.ok.injEq, Prod.mk.injEq] at h
    exact Or.inl ⟨h.1.symm, h.2.symm, h0⟩
  · simp only [h0, if_false] at h
    cases hs : scan s.k_ s.current_timestamp_ { max := 0, evict_f := none, last := INF }
        s.node_store_ with
    | error e => simp [hs] at h
    | ok acc =>
      simp only [hs] at h
      cases hf : acc.evict_f with
      | none => simp [hf] at h
      | some f =>
        simp only [hf] at h
        cases hr : s.Remove f with
        | error e => simp [hr] at h
        | ok s2 =>
          simp only [hr, Except.ok.injEq, Prod.mk.injEq] at h
          exact Or.inr ⟨f, h.1.symm, h0, h.2 ▸ hr, acc, rfl, hf⟩

/-- The map as `RecordAccess` has it after its first statement. -/
theorem RecordAccess_store (s : LRUKReplacer) (f : frame_id_t) :
    ∃ store node0, store.find f = some node0 ∧
      ((s.node_store_.find f = none ∧ store = s.node_store_ ++ [(f, LRUKNode.mk2 s.k_ f)] ∧
          node0 = LRUKNode.mk2 s.k_ f) ∨
        (s.node_store_.find f = some node0 ∧ store = s.node_store_)) ∧
      ∀ a, s.RecordAccess f a =
        match (if node0.size = s.k_ then defined node0.pop else .ok node0) with
        | .error e => .error e
        | .ok node1 =>
          .ok { s with
            node_store_ := store.set f (node1.appendFront s.current_timestamp_)
            current_timestamp_ := (s.current_timestamp_ + 1) % 2 ^ 64 } := by
  cases h : s.node_store_.find f with
  | none =>
    refine ⟨s.node_store_ ++ [(f, LRUKNode.mk2 s.k_ f)], LRUKNode.mk2 s.k_ f,
      NodeStore.find_append_self _ h, Or.inl ⟨rfl, rfl, rfl⟩, ?_⟩
    intro a
    simp [RecordAccess, h, NodeStore.insert, NodeStore.get, NodeStore.find_append_self _ h]
  | some node0 =>
    refine ⟨s.node_store_, node0, h, Or.inr ⟨rfl, rfl⟩, ?_⟩
    intro a
    simp [RecordAccess, h, NodeStore.get]

/-- The state after a call of `RecordAccess` that returns. -/
theorem RecordAccess_ok {s s1 : LRUKReplacer} {f : frame_id_t} {a : AccessType}
    (h : s.RecordAccess f a = .ok s1) :
    ∃ store node0, store.find f = some node0 ∧
      ((s.node_store_.find f = none ∧ store = s.node_store_ ++ [(f, LRUKNode.mk2 s.k_ f)] ∧
          node0 = LRUKNode.mk2 s.k_ f) ∨
        (s.node_store_.find f = some node0 ∧ store = s.node_store_)) ∧
      (node0.history_.length = s.k_ → node0.history_ ≠ []) ∧
      s1 = { s with
        node_store_ := store.set f
          { node0 with history_ := s.current_timestamp_ ::
              (if node0.history_.length = s.k_ then node0.history_.dropLast
                else node0.history_) }
        current_timestamp_ := (s.current_timestamp_ + 1) % 2 ^ 64 } := by
  obtain ⟨store, node0, h1, h2, h3⟩ := RecordAccess_store s f
  refine ⟨store, node0, h1, h2, ?_⟩
  rw [h3 a] at h
  by_cases hk : node0.history_.length = s.k_
  · simp only [LRUKNode.size, hk, if_true] at h ⊢
    cases hh : node0.history_ with
    | nil => simp [LRUKNode.pop, hh, defined] at h
    | cons t rest =>
      simp only [LRUKNode.pop, hh, defined, Except.ok.injEq, LRUKNode.appendFront] at h
      exact ⟨fun _ => by simp, h.symm⟩
  · simp only [LRUKNode.size, hk, if_false, Except.ok.injEq, LRUKNode.appendFront] at h ⊢
    exact ⟨fun h0 => absurd h0 (by simp), h.symm⟩

theorem RecordAccess_of_untracked {s : LRUKReplacer} {f : frame_id_t} (a : AccessType)
    (h : s.node_store_.find f = none) (hk : s.k_ ≠ 0) :
    s.RecordAccess f a = .ok { s with
      node_store_ := s.node_store_ ++ [(f, ⟨[s.current_timestamp_], s.k_, f, false⟩)]
      current_timestamp_ := (s.current_timestamp_ + 1) % 2 ^ 64 } := by
  obtain ⟨store, node0, _, h2, h3⟩ := RecordAccess_store s f
  rcases h2 with ⟨_, rfl, rfl⟩ | ⟨h4, _⟩
  · rw [h3 a]
    have hk0 : ¬ (0 = s.k_) := fun e => hk e.symm
    simp only [LRUKNode.size, LRUKNode.mk2, List.length_nil, hk0, if_false,
      LRUKNode.appendFront]
    rw [NodeStore.set_append_self _ _ h]
  · rw [h] at h4
    cases h4

theorem RecordAccess_of_tracked {s : LRUKReplacer} {f : frame_id_t} (node : LRUKNode)
    (a : AccessType) (h : s.node_store_.find f = some node)
    (hne : node.history_.length = s.k_ → node.history_ ≠ []) :
    s.RecordAccess f a = .ok { s with
      node_store_ := s.node_store_.set f { node with
        history_ := s.current_timestamp_ ::
          (if node.history_.length = s.k_ then node.history_.dropLast else node.history_) }
      current_timestamp_ := (s.current_timestamp_ + 1) % 2 ^ 64 } := by
  obtain ⟨store, node0, _, h2, h3⟩ := RecordAccess_store s f
  rcases h2 with ⟨h4, _⟩ | ⟨h4, rfl⟩
  · rw [h] at h4
    cases h4
  · rw [h] at h4
    cases h4
    rw [h3 a]
    by_cases hk : node.history_.length = s.k_
    · cases hh : node.history_ with
      | nil => exact absurd hh (hne hk)
      | cons t rest =>
        rw [hh] at hk
        simp only [LRUKNode.size, LRUKNode.pop, hh, hk, if_true, defined,
          LRUKNode.appendFront]
    · simp only [LRUKNode.size, hk, if_false, LRUKNode.appendFront]

/-- With a history depth of at least one, `RecordAccess` returns in every state. -/
theorem RecordAccess_returns (s : LRUKReplacer) (f : frame_id_t) (a : AccessType)
    (hk : 1 ≤ s.k_) : ∃ s1, s.RecordAccess f a = .ok s1 := by
  obtain ⟨store, node0, _, _, h3⟩ := RecordAccess_store s f
  rw [h3 a]
  by_cases hk0 : node0.history_.length = s.k_
  · cases hh : node0.history_ with
    | nil => rw [hh] at hk0; simp at hk0; omega
    | cons t rest =>
      rw [hh] at hk0
      simp only [LRUKNode.size, LRUKNode.pop, hh, hk0, if_true, defined]
      exact ⟨_, rfl⟩
  · simp [LRUKNode.size, hk0]

end LRUKReplacer

namespace WellFormed

theorem new (num_frames k t0 : Nat) : WellFormed k (LRUKReplacer.new num_frames k t0) where
  keys_nodup := by simp [LRUKReplacer.new, NodeStore.keys]
  size_eq := by simp [LRUKReplacer.new, NodeStore.evictableCount]
  k_eq := rfl
  history_ne := by simp [LRUKReplacer.new]
  history_le := by simp [LRUKReplacer.new]

theorem size_lt {k : Nat} {s : LRUKReplacer} (h : WellFormed k s) :
    s.curr_size_ ≤ 4294967296 := by
  rw [h.size_eq]
  exact le_trans (NodeStore.evictableCount_le _) (NodeStore.length_le _ h.keys_nodup)

theorem rehash {k : Nat} {s : LRUKReplacer} (h : WellFormed k s) {store : NodeStore}
    (hp : store.Perm s.node_store_) : WellFormed k { s with node_store_ := store } where
  keys_nodup := (List.Perm.map Prod.fst hp).nodup_iff.2 h.keys_nodup
  size_eq := by
    rw [h.size_eq]
    exact (List.Perm.countP_eq _ hp).symm
  k_eq := h.k_eq
  history_ne := fun p hp1 => h.history_ne p (hp.mem_iff.1 hp1)
  history_le := fun p hp1 => h.history_le p (hp.mem_iff.1 hp1)

theorem Remove {k : Nat} {s s1 : LRUKReplacer} (h : WellFormed k s) {f : frame_id_t}
    (hr : s.Remove f = .ok s1) : WellFormed k s1 := by
  rcases LRUKReplacer.Remove_cases s f with ⟨_, h1⟩ | ⟨node, _, _, h1⟩ | ⟨node, hf, he, h1⟩
  · rw [h1] at hr
    cases hr
    exact h
  · rw [h1] at hr
    cases hr
  · rw [h1] at hr
    cases hr
    have hc := NodeStore.evictableCount_erase h.keys_nodup hf
    have hs := h.size_eq
    have hl := h.size_lt
    simp only [he, if_true] at hc
    exact {
      keys_nodup := NodeStore.keys_erase_nodup f h.keys_nodup
      size_eq := by
        show (s.curr_size_ + 2 ^ 64 - 1) % 2 ^ 64 = (s.node_store_.erase f).evictableCount
        omega
      k_eq := h.k_eq
      history_ne := fun p hp => h.history_ne p (NodeStore.mem_erase.1 hp).1
      history_le := fun p hp => h.history_le p (NodeStore.mem_erase.1 hp).1 }

theorem Evict {k : Nat} {s s1 : LRUKReplacer} (h : WellFormed k s) {r : Option frame_id_t}
    (hr : s.Evict = .ok (r, s1)) : WellFormed k s1 := by
  rcases LRUKReplacer.Evict_cases hr with ⟨_, h1, _⟩ | ⟨f, _, _, h1, _⟩
  · rw [h1]
    exact h
  · exact h.Remove h1

theorem SetEvictable {k : Nat} {s : LRUKReplacer} (h : WellFormed k s) (f : frame_id_t)
    (b : Bool) : WellFormed k (s.SetEvictable f b) := by
  unfold LRUKReplacer.SetEvictable
  cases hf : s.node_store_.find f with
  | none => exact h
  | some node =>
    simp only
    by_cases hx : xor b node.isEvictable = true
    · simp only [hx, if_true]
      have hmem : f ∈ s.node_store_.keys := by
        by_contra hc
        rw [← NodeStore.find_eq_none_iff] at hc
        rw [hc] at hf
        cases hf
      have hc := NodeStore.evictableCount_set (node.setEvictable b) hf
      have hs := h.size_eq
      have hl := h.size_lt
      have hp := NodeStore.mem_of_find_eq_some hf
      exact {
        keys_nodup := by
          show (s.node_store_.set f _).keys.Nodup
          rw [NodeStore.keys_set_of_mem _ _ hmem]
          exact h.keys_nodup
        size_eq := by
          show (s.curr_size_ + (if b = true then 1 else 2 ^ 64 - 1)) % 2 ^ 64
            = (s.node_store_.set f (node.setEvictable b)).evictableCount
          have hb : (node.setEvictable b).is_evictable_ = b := rfl
          rw [hb] at hc
          simp only [LRUKNode.isEvictable] at hx
          cases b <;> cases hn : node.is_evictable_ <;> simp [hn] at hc hx ⊢ <;> omega
        k_eq := h.k_eq
        history_ne := by
          intro p hp1
          rcases NodeStore.mem_set h.keys_nodup hp1 with rfl | ⟨h2, _⟩
          · exact h.history_ne (f, node) hp
          · exact h.history_ne _ h2
        history_le := by
          intro p hp1
          rcases NodeStore.mem_set h.keys_nodup hp1 with rfl | ⟨h2, _⟩
          · exact h.history_le (f, node) hp
          · exact h.history_le _ h2 }
    · simp only [hx, if_false]
      exact h

/-- The map of `RecordAccess` after its first statement has the entries of the map before,
with distinct keys and the same number of evictable entries. -/
theorem store_of_RecordAccess {k : Nat} {s : LRUKReplacer} (h : WellFormed k s) {f : frame_id_t}
    {store : NodeStore} {node0 : LRUKNode}
    (h2 : (s.node_store_.find f = none ∧ store = s.node_store_ ++ [(f, LRUKNode.mk2 s.k_ f)] ∧
          node0 = LRUKNode.mk2 s.k_ f) ∨
        (s.node_store_.find f = some node0 ∧ store = s.node_store_)) :
    store.keys.Nodup ∧ store.evictableCount = s.node_store_.evictableCount ∧
      node0.history_.length ≤ k ∧
      ∀ p ∈ store, p.1 ≠ f → p ∈ s.node_store_ := by
  rcases h2 with ⟨hf, rfl, rfl⟩ | ⟨hf, rfl⟩
  · refine ⟨?_, ?_, by simp [LRUKNode.mk2], ?_⟩
    · rw [NodeStore.find_eq_none_iff] at hf
      simp only [NodeStore.keys, List.map_append, List.map_cons, List.map_nil]
      refine List.Nodup.append h.keys_nodup (List.nodup_singleton f) ?_
      intro g hg hg1
      rw [List.mem_singleton] at hg1
      exact hf (hg1 ▸ hg)
    · simp [NodeStore.evictableCount, List.countP_append, LRUKNode.mk2]
    · intro p hp hne
      rcases List.mem_append.1 hp with h1 | h1
      · exact h1
      · simp only [List.mem_singleton] at h1
        exact absurd (congrArg Prod.fst h1) hne
  · exact ⟨h.keys_nodup, rfl, h.history_le _ (NodeStore.mem_of_find_eq_some hf),
      fun p hp _ => hp⟩

theorem RecordAccess {k : Nat} {s s1 : LRUKReplacer} (h : WellFormed k s) {f : frame_id_t}
    {a : AccessType} (hr : s.RecordAccess f a = .ok s1) : WellFormed k s1 := by
  obtain ⟨store, node0, h1, h2, h3, rfl⟩ := LRUKReplacer.RecordAccess_ok hr
  obtain ⟨hnd, hcount, hlen, hmem⟩ := h.store_of_RecordAccess h2
  have hkeys : f ∈ store.keys := by
    by_contra hc
    rw [← NodeStore.find_eq_none_iff] at hc
    rw [hc] at h1
    cases h1
  have hk := h.k_eq
  exact {
    keys_nodup := by
      show (store.set f _).keys.Nodup
      rw [NodeStore.keys_set_of_mem _ _ hkeys]
      exact hnd
    size_eq := by
      show s.curr_size_ = (store.set f _).evictableCount
      have hc := NodeStore.evictableCount_set
        { node0 with history_ := s.current_timestamp_ ::
            (if node0.history_.length = s.k_ then node0.history_.dropLast
              else node0.history_) } h1
      have hs := h.size_eq
      simp only at hc
      omega
    k_eq := h.k_eq
    history_ne := by
      intro p hp
      rcases NodeStore.mem_set hnd hp with rfl | ⟨hp1, hp2⟩
      · simp
      · exact h.history_ne p (hmem p hp1 hp2)
    history_le := by
      intro p hp
      rcases NodeStore.mem_set hnd hp with rfl | ⟨hp1, hp2⟩
      · by_cases hl : node0.history_.length = s.k_
        · have hne := h3 hl
          have hpos : 0 < node0.history_.length := List.length_pos.2 hne
          simp only [hl, if_true, List.length_cons, List.length_dropLast]
          omega
        · simp only [hl, if_false, List.length_cons]
          omega
      · exact h.history_le p (hmem p hp1 hp2) }

end WellFormed

namespace LRUKReplacer

theorem Remove_exception {s st : LRUKReplacer} {f g : frame_id_t}
    (h : s.Remove f = .error (.Exception g st)) : g = f ∧ st = s := by
  rcases Remove_cases s f with ⟨_, h1⟩ | ⟨node, _, _, h1⟩ | ⟨node, _, _, h1⟩
  · rw [h1] at h; cases h
  · rw [h1] at h; cases h; exact ⟨rfl, rfl⟩
  · rw [h1] at h; cases h

theorem Remove_defined (s : LRUKReplacer) (f : frame_id_t) :
    s.Remove f ≠ .error .Undefined := by
  rcases Remove_cases s f with ⟨_, h1⟩ | ⟨node, _, _, h1⟩ | ⟨node, _, _, h1⟩ <;>
    rw [h1] <;> simp

theorem scanStep_not_evictable {k_ t : Nat} {acc : Scan} {pair : frame_id_t × LRUKNode}
    (h : pair.2.is_evictable_ = false) : scanStep k_ t acc pair = .ok acc := by
  simp [scanStep, LRUKNode.isEvictable, h]

theorem scanStep_evictable {k_ t : Nat} {acc : Scan} {pair : frame_id_t × LRUKNode} {e : Nat}
    (h : pair.2.is_evictable_ = true) (he : pair.2.end_ = some e) :
    scanStep k_ t acc pair = .ok
      (if acc.max < (if pair.2.size = k_ then (t + 2 ^ 64 - e) % 2 ^ 64 else INF) then
        { max := (if pair.2.size = k_ then (t + 2 ^ 64 - e) % 2 ^ 64 else INF),
          evict_f := some pair.1, last := e }
      else if (if pair.2.size = k_ then (t + 2 ^ 64 - e) % 2 ^ 64 else INF) = acc.max ∧
          acc.max = INF ∧ acc.last > e then
        { acc with evict_f := some pair.1, last := e }
      else acc) := by
  simp only [scanStep, LRUKNode.isEvictable, h, he, defined, bind, Except.bind, pure,
    Except.pure]
  by_cases h1 : pair.2.size = k_ <;> simp only [h1, if_true, if_false] <;>
    split_ifs <;> first | rfl | (exfalso; tauto)

theorem scanStep_no_exception {k_ t : Nat} {acc : Scan} {pair : frame_id_t × LRUKNode}
    {g : frame_id_t} {st : LRUKReplacer} :
    scanStep k_ t acc pair ≠ .error (.Exception g st) := by
  cases h : pair.2.is_evictable_ with
  | false => simp [scanStep_not_evictable h]
  | true =>
    cases he : pair.2.end_ with
    | some e => simp [scanStep_evictable h he]
    | none =>
      simp only [scanStep, LRUKNode.isEvictable, h, he, defined, bind, Except.bind, pure,
        Except.pure]
      split_ifs <;> simp

theorem scan_no_exception {k_ t : Nat} {m : NodeStore} {acc : Scan}
    {g : frame_id_t} {st : LRUKReplacer} :
    scan k_ t acc m ≠ .error (.Exception g st) := by
  induction m generalizing acc with
  | nil => simp [scan]
  | cons p rest ih =>
    simp only [scan]
    cases hs : scanStep k_ t acc p with
    | ok acc1 => exact ih
    | error e =>
      simp only
      intro h
      cases h
      exact scanStep_no_exception hs

theorem Evict_exception {s st : LRUKReplacer} {g : frame_id_t}
    (h : s.Evict = .error (.Exception g st)) : st = s := by
  unfold Evict at h
  by_cases h0 : s.curr_size_ = 0
  · simp [h0] at h
  · simp only [h0, if_false] at h
    cases hs : scan s.k_ s.current_timestamp_ { max := 0, evict_f := none, last := INF }
        s.node_store_ with
    | error e =>
      simp only [hs, Except.error.injEq] at h
      exact absurd (h ▸ hs) scan_no_exception
    | ok acc =>
      simp only [hs] at h
      cases hf : acc.evict_f with
      | none => simp [hf] at h
      | some f =>
        simp only [hf] at h
        cases hr : s.Remove f with
        | error e =>
          simp only [hr, Except.error.injEq] at h
          exact (Remove_exception (h ▸ hr)).2
        | ok s2 => simp [hr] at h

end LRUKReplacer

/-- Every reachable state is well-formed. -/
theorem Reachable.wellFormed {num_frames k t0 n : Nat} {s : LRUKReplacer}
    (h : Reachable num_frames k t0 n s) : WellFormed k s := by
  induction h with
  | new => exact WellFormed.new num_frames k t0
  | RecordAccess f a _ hr ih => exact ih.RecordAccess hr
  | SetEvictable f b _ ih => exact ih.SetEvictable f b
  | Evict _ hr ih => exact ih.Evict hr
  | Remove f _ hr ih => exact ih.Remove hr
  | rehash store _ hp ih => exact ih.rehash hp

/-! ## The invariant that depends on the clock -/

namespace Stamped

theorem init (num_frames k t0 : Nat) : Stamped t0 0 (LRUKReplacer.new num_frames k t0) where
  clock_eq := rfl
  stamp_lt := by simp [LRUKReplacer.new]
  decreasing := by simp [LRUKReplacer.new]
  unique := by simp [LRUKReplacer.new]

/-- The invariant passes to a state with the same clock whose entries all have the key and
the history of an entry of the state before. -/
theorem of_entries {t0 n : Nat} {s s1 : LRUKReplacer} (h : Stamped t0 n s)
    (hclock : s1.current_timestamp_ = s.current_timestamp_)
    (hsub : ∀ p ∈ s1.node_store_, ∃ q ∈ s.node_store_,
      q.1 = p.1 ∧ q.2.history_ = p.2.history_) : Stamped t0 n s1 where
  clock_eq := hclock.trans h.clock_eq
  stamp_lt := by
    intro p hp t ht
    obtain ⟨q, hq, _, hh⟩ := hsub p hp
    rw [hclock]
    exact h.stamp_lt q hq t (hh ▸ ht)
  decreasing := by
    intro p hp
    obtain ⟨q, hq, _, hh⟩ := hsub p hp
    exact hh ▸ h.decreasing q hq
  unique := by
    intro p hp p1 hp1 t ht ht1
    obtain ⟨q, hq, hk, hh⟩ := hsub p hp
    obtain ⟨q1, hq1, hk1, hh1⟩ := hsub p1 hp1
    rw [← hk, ← hk1]
    exact h.unique q hq q1 hq1 t (hh ▸ ht) (hh1 ▸ ht1)

theorem of_rehash {t0 n : Nat} {s : LRUKReplacer} (h : Stamped t0 n s) {store : NodeStore}
    (hp : store.Perm s.node_store_) : Stamped t0 n { s with node_store_ := store } :=
  h.of_entries rfl (fun p hp1 => ⟨p, hp.mem_iff.1 hp1, rfl, rfl⟩)

theorem of_Remove {t0 n : Nat} {s s1 : LRUKReplacer} (h : Stamped t0 n s) {f : frame_id_t}
    (hr : s.Remove f = .ok s1) : Stamped t0 n s1 := by
  rcases LRUKReplacer.Remove_cases s f with ⟨_, h1⟩ | ⟨node, _, _, h1⟩ | ⟨node, hf, he, h1⟩
  · rw [h1] at hr
    cases hr
    exact h
  · rw [h1] at hr
    cases hr
  · rw [h1] at hr
    cases hr
    exact h.of_entries rfl (fun p hp => ⟨p, (NodeStore.mem_erase.1 hp).1, rfl, rfl⟩)

theorem of_Evict {t0 n : Nat} {s s1 : LRUKReplacer} (h : Stamped t0 n s)
    {r : Option frame_id_t} (hr : s.Evict = .ok (r, s1)) : Stamped t0 n s1 := by
  rcases LRUKReplacer.Evict_cases hr with ⟨_, h1, _⟩ | ⟨f, _, _, h1, _⟩
  · rw [h1]
    exact h
  · exact h.of_Remove h1

theorem of_SetEvictable {k t0 n : Nat} {s : LRUKReplacer} (h : Stamped t0 n s)
    (hw : WellFormed k s) (f : frame_id_t) (b : Bool) : Stamped t0 n (s.SetEvictable f b) := by
  unfold LRUKReplacer.SetEvictable
  cases hf : s.node_store_.find f with
  | none => exact h
  | some node =>
    simp only
    by_cases hx : xor b node.isEvictable = true
    · simp only [hx, if_true]
      refine h.of_entries rfl ?_
      intro p hp
      rcases NodeStore.mem_set hw.keys_nodup hp with rfl | ⟨h2, _⟩
      · exact ⟨(f, node), NodeStore.mem_of_find_eq_some hf, rfl, rfl⟩
      · exact ⟨p, h2, rfl, rfl⟩
    · simp only [hx, if_false]
      exact h

theorem of_RecordAccess {k t0 n : Nat} {s s1 : LRUKReplacer} (h : Stamped t0 n s)
    (hw : WellFormed k s) (hn : t0 + (n + 1) < 2 ^ 64) {f : frame_id_t} {a : AccessType}
    (hr : s.RecordAccess f a = .ok s1) : Stamped t0 (n + 1) s1 := by
  obtain ⟨store, node0, h1, h2, h3, rfl⟩ := LRUKReplacer.RecordAccess_ok hr
  obtain ⟨hnd, _, _, hmem⟩ := hw.store_of_RecordAccess h2
  have hc := h.clock_eq
  have hclock : (s.current_timestamp_ + 1) % 2 ^ 64 = s.current_timestamp_ + 1 :=
    Nat.mod_eq_of_lt (by omega)
  -- the timestamps that the entry of `f` keeps were in the history of `f` before
  have hold : ∀ t ∈ (if node0.history_.length = s.k_ then node0.history_.dropLast
      else node0.history_), t ∈ node0.history_ := by
    intro t ht
    split_ifs at ht
    · exact List.dropLast_subset _ ht
    · exact ht
  have hnode0 : node0.history_ = [] ∨ (f, node0) ∈ s.node_store_ := by
    rcases h2 with ⟨_, _, rfl⟩ | ⟨hf, _⟩
    · exact Or.inl rfl
    · exact Or.inr (NodeStore.mem_of_find_eq_some hf)
  have hin : ∀ t ∈ node0.history_, (f, node0) ∈ s.node_store_ := by
    intro t ht
    rcases hnode0 with h0 | h0
    · rw [h0] at ht
      cases ht
    · exact h0
  have hlt0 : ∀ t ∈ node0.history_, t < s.current_timestamp_ :=
    fun t ht => h.stamp_lt _ (hin t ht) t ht
  have hdec0 : node0.history_.Pairwise (fun a b => b < a) := by
    rcases hnode0 with h0 | h0
    · rw [h0]
      exact List.Pairwise.nil
    · exact h.decreasing _ h0
  exact {
    clock_eq := by
      show (s.current_timestamp_ + 1) % 2 ^ 64 = t0 + (n + 1)
      omega
    stamp_lt := by
      intro p hp t ht
      show t < (s.current_timestamp_ + 1) % 2 ^ 64
      rw [hclock]
      rcases NodeStore.mem_set hnd hp with rfl | ⟨hp1, hp2⟩
      · rcases List.mem_cons.1 ht with rfl | ht1
        · exact Nat.lt_succ_self _
        · exact Nat.lt_succ_of_lt (hlt0 t (hold t ht1))
      · exact Nat.lt_succ_of_lt (h.stamp_lt p (hmem p hp1 hp2) t ht)
    decreasing := by
      intro p hp
      rcases NodeStore.mem_set hnd hp with rfl | ⟨hp1, hp2⟩
      · refine List.Pairwise.cons (fun t ht => hlt0 t (hold t ht)) ?_
        split_ifs
        · exact List.Pairwise.sublist (List.dropLast_sublist _) hdec0
        · exact hdec0
      · exact h.decreasing p (hmem p hp1 hp2)
    unique := by
      intro p hp q hq t ht htq
      rcases NodeStore.mem_set hnd hp with rfl | ⟨hp1, hp2⟩
      · rcases NodeStore.mem_set hnd hq with rfl | ⟨hq1, hq2⟩
        · rfl
        · rcases List.mem_cons.1 ht with rfl | ht1
          · exact absurd (h.stamp_lt q (hmem q hq1 hq2) _ htq) (Nat.lt_irrefl _)
          · exact h.unique (f, node0) (hin t (hold t ht1)) q (hmem q hq1 hq2) t
              (hold t ht1) htq
      · rcases NodeStore.mem_set hnd hq with rfl | ⟨hq1, hq2⟩
        · rcases List.mem_cons.1 htq with rfl | ht1
          · exact absurd (h.stamp_lt p (hmem p hp1 hp2) _ ht) (Nat.lt_irrefl _)
          · exact h.unique p (hmem p hp1 hp2) (f, node0) (hin t (hold t ht1)) t ht
              (hold t ht1)
        · exact h.unique p (hmem p hp1 hp2) q (hmem q hq1 hq2) t ht htq }

end Stamped

/-- As long as the clock has not wrapped around, the reachable states satisfy the invariant
that depends on the clock. -/
theorem Reachable.stamped {num_frames k t0 n : Nat} {s : LRUKReplacer}
    (h : Reachable num_frames k t0 n s) : t0 + n < 2 ^ 64 → Stamped t0 n s := by
  induction h with
  | new => exact fun _ => Stamped.init num_frames k t0
  | RecordAccess f a hs hr ih =>
    intro hn
    exact (ih (by omega)).of_RecordAccess hs.wellFormed hn hr
  | SetEvictable f b hs ih => exact fun hn => (ih hn).of_SetEvictable hs.wellFormed f b
  | Evict _ hr ih => exact fun hn => (ih hn).of_Evict hr
  | Remove f _ hr ih => exact fun hn => (ih hn).of_Remove hr
  | rehash store _ hp ih => exact fun hn => (ih hn).of_rehash hp

/-! ## The loop of `Evict` -/

namespace LRUKReplacer

theorem kDist_pos (k_ : Nat) {t e : Nat} (node : LRUKNode) (he : e < t) (ht : t < 2 ^ 64) :
    1 ≤ kDist k_ t node e := by
  unfold kDist INF
  split_ifs <;> omega

theorem kDist_le (k_ t e : Nat) (node : LRUKNode) : kDist k_ t node e ≤ INF := by
  unfold kDist INF
  split_ifs <;> omega

theorem kDist_of_full {k_ t e : Nat} {node : LRUKNode} (hs : node.history_.length = k_)
    (he : e < t) (ht : t < INF) : kDist k_ t node e = t - e ∧ t - e < INF := by
  unfold INF at ht
  unfold kDist INF
  simp only [LRUKNode.size, hs, if_true]
  omega

theorem kDist_of_not_full {k_ : Nat} (t e : Nat) {node : LRUKNode}
    (hs : node.history_.length ≠ k_) :
    kDist k_ t node e = INF := by
  simp only [kDist, LRUKNode.size, hs, if_false]

theorem kDist_eq_INF_iff {k_ t e : Nat} {node : LRUKNode} (he : e < t) (ht : t < INF) :
    kDist k_ t node e = INF ↔ node.history_.length ≠ k_ := by
  constructor
  · intro h hs
    have := kDist_of_full hs he ht
    omega
  · exact kDist_of_not_full t e

theorem scanStep_eq {k_ t : Nat} {acc : Scan} {pair : frame_id_t × LRUKNode} {e : Nat}
    (h : pair.2.is_evictable_ = true) (he : pair.2.end_ = some e) :
    scanStep k_ t acc pair = .ok
      (if acc.max < kDist k_ t pair.2 e then
        { max := kDist k_ t pair.2 e, evict_f := some pair.1, last := e }
      else if kDist k_ t pair.2 e = acc.max ∧ acc.max = INF ∧ acc.last > e then
        { acc with evict_f := some pair.1, last := e }
      else acc) :=
  scanStep_evictable h he

theorem ScanInv.start (k_ t : Nat) :
    ScanInv k_ t [] { max := 0, evict_f := none, last := INF } where
  unassigned := fun _ => ⟨rfl, by simp⟩
  max_le := Nat.zero_le _
  assigned := by simp
  bound := by simp

/-- One iteration of the loop keeps what the loop has established. -/
theorem ScanInv.step {k_ t : Nat} {seen : NodeStore} {acc : Scan}
    (h : ScanInv k_ t seen acc) (ht : t < 2 ^ 64) (p : frame_id_t × LRUKNode) {e : Nat}
    (he : p.2.end_ = some e) (hlt : e < t) :
    ∃ acc1, scanStep k_ t acc p = .ok acc1 ∧ ScanInv k_ t (seen ++ [p]) acc1 := by
  cases hev : p.2.is_evictable_ with
  | false =>
    refine ⟨acc, scanStep_not_evictable hev, ?_⟩
    exact {
      unassigned := by
        intro h0
        refine ⟨(h.unassigned h0).1, ?_⟩
        intro q hq
        rcases List.mem_append.1 hq with h1 | h1
        · exact (h.unassigned h0).2 q h1
        · rw [List.mem_singleton.1 h1]
          exact hev
      max_le := h.max_le
      assigned := by
        intro x hx
        obtain ⟨node, e1, h1, h2⟩ := h.assigned x hx
        exact ⟨node, e1, List.mem_append_left _ h1, h2⟩
      bound := by
        intro q hq hqe
        rcases List.mem_append.1 hq with h1 | h1
        · exact h.bound q h1 hqe
        · rw [List.mem_singleton.1 h1, hev] at hqe
          cases hqe }
  | true =>
    have hpos := kDist_pos k_ p.2 hlt ht
    have hle := kDist_le k_ t e p.2
    have hmax := h.max_le
    -- an entry seen before
    have hseen : ∀ q ∈ seen ++ [p], q ∈ seen ∨ q = p := by
      intro q hq
      rcases List.mem_append.1 hq with h1 | h1
      · exact Or.inl h1
      · exact Or.inr (List.mem_singleton.1 h1)
    have hp : p ∈ seen ++ [p] := List.mem_append_right _ (List.mem_singleton_self p)
    rw [scanStep_eq hev he]
    by_cases hc1 : acc.max < kDist k_ t p.2 e
    · refine ⟨_, by rw [if_pos hc1], ?_⟩
      exact {
        unassigned := by simp
        max_le := hle
        assigned := by
          intro x hx
          simp only [Option.some.injEq] at hx
          subst hx
          exact ⟨p.2, e, hp, hev, he, rfl, rfl⟩
        bound := by
          intro q hq hqe e1 he1
          show kDist k_ t q.2 e1 ≤ kDist k_ t p.2 e ∧ (kDist k_ t q.2 e1 = INF → e ≤ e1)
          rcases hseen q hq with h1 | h1
          · have hb := h.bound q h1 hqe e1 he1
            constructor
            · omega
            · intro h2
              omega
          · subst h1
            rw [he] at he1
            cases he1
            exact ⟨le_refl _, fun _ => le_refl _⟩ }
    · by_cases hc2 : kDist k_ t p.2 e = acc.max ∧ acc.max = INF ∧ acc.last > e
      · refine ⟨_, by rw [if_neg hc1, if_pos hc2], ?_⟩
        exact {
          unassigned := by simp
          max_le := hmax
          assigned := by
            intro x hx
            simp only [Option.some.injEq] at hx
            subst hx
            exact ⟨p.2, e, hp, hev, he, hc2.1.symm, rfl⟩
          bound := by
            intro q hq hqe e1 he1
            show kDist k_ t q.2 e1 ≤ acc.max ∧ (kDist k_ t q.2 e1 = INF → e ≤ e1)
            rcases hseen q hq with h1 | h1
            · have hb := h.bound q h1 hqe e1 he1
              refine ⟨hb.1, fun h2 => ?_⟩
              have := hb.2 h2
              omega
            · subst h1
              rw [he] at he1
              cases he1
              exact ⟨le_of_eq hc2.1, fun _ => le_refl _⟩ }
      · refine ⟨_, by rw [if_neg hc1, if_neg hc2], ?_⟩
        have hassigned : acc.evict_f ≠ none := by
          intro h0
          have := (h.unassigned h0).1
          omega
        exact {
          unassigned := fun h0 => absurd h0 hassigned
          max_le := hmax
          assigned := by
            intro x hx
            obtain ⟨node, e1, h1, h2⟩ := h.assigned x hx
            exact ⟨node, e1, List.mem_append_left _ h1, h2⟩
          bound := by
            intro q hq hqe e1 he1
            rcases hseen q hq with h1 | h1
            · exact h.bound q h1 hqe e1 he1
            · subst h1
              rw [he] at he1
              cases he1
              refine ⟨by omega, fun h2 => ?_⟩
              by_contra hlast
              exact hc2 ⟨by omega, by omega, by omega⟩ }

/-- The loop keeps what it has established, and it runs to its end, when every entry has a
non-empty history whose oldest timestamp is older than the clock. -/
theorem ScanInv.scan {k_ t : Nat} (ht : t < 2 ^ 64) (rest : NodeStore) :
    ∀ {seen : NodeStore} {acc : Scan}, ScanInv k_ t seen acc →
      (∀ p ∈ rest, ∃ e, p.2.end_ = some e ∧ e < t) →
      ∃ acc1, scan k_ t acc rest = .ok acc1 ∧ ScanInv k_ t (seen ++ rest) acc1 := by
  induction rest with
  | nil =>
    intro seen acc h _
    exact ⟨acc, rfl, by simpa using h⟩
  | cons p rest ih =>
    intro seen acc h hrest
    obtain ⟨e, he, hlt⟩ := hrest p (List.mem_cons_self _ _)
    obtain ⟨acc1, h1, h2⟩ := h.step ht p he hlt
    obtain ⟨acc2, h3, h4⟩ := ih h2 (fun q hq => hrest q (List.mem_cons_of_mem _ hq))
    refine ⟨acc2, ?_, ?_⟩
    · simp only [LRUKReplacer.scan, h1]
      exact h3
    · simpa using h4

/-- An iteration of the loop assigns `evict_f` only the key of an evictable entry. -/
theorem scanStep_evict_f {k_ t : Nat} {acc acc1 : Scan} {p : frame_id_t × LRUKNode}
    (h : scanStep k_ t acc p = .ok acc1) :
    acc1.evict_f = acc.evict_f ∨ (p.2.is_evictable_ = true ∧ acc1.evict_f = some p.1) := by
  cases hev : p.2.is_evictable_ with
  | false =>
    rw [scanStep_not_evictable hev] at h
    cases h
    exact Or.inl rfl
  | true =>
    cases he : p.2.end_ with
    | some e =>
      rw [scanStep_eq hev he, Except.ok.injEq] at h
      subst h
      split_ifs
      · exact Or.inr ⟨rfl, rfl⟩
      · exact Or.inr ⟨rfl, rfl⟩
      · exact Or.inl rfl
    | none =>
      simp only [scanStep, LRUKNode.isEvictable, hev, he, defined, bind, Except.bind, pure,
        Except.pure] at h
      split_ifs at h <;> cases h <;> exact Or.inl rfl

/-- The loop assigns `evict_f` only the key of an evictable entry. -/
theorem scan_evict_f {k_ t : Nat} (m : NodeStore) :
    ∀ {acc acc1 : Scan}, scan k_ t acc m = .ok acc1 →
      acc1.evict_f = acc.evict_f ∨
        ∃ p ∈ m, p.2.is_evictable_ = true ∧ acc1.evict_f = some p.1 := by
  induction m with
  | nil =>
    intro acc acc1 h
    simp only [scan, Except.ok.injEq] at h
    exact Or.inl (h ▸ rfl)
  | cons p rest ih =>
    intro acc acc1 h
    simp only [scan] at h
    cases hs : scanStep k_ t acc p with
    | error e => simp [hs] at h
    | ok acc2 =>
      simp only [hs] at h
      rcases ih h with h1 | ⟨q, hq, h1⟩
      · rcases scanStep_evict_f hs with h2 | h2
        · exact Or.inl (h1.trans h2)
        · exact Or.inr ⟨p, List.mem_cons_self _ _, h2.1, h1.trans h2.2⟩
      · exact Or.inr ⟨q, List.mem_cons_of_mem _ hq, h1⟩

/-- A frame that `Evict` returns was tracked and evictable, and the state after the call is
the one that `Remove` of that frame returns. -/
theorem Evict_victim {k : Nat} {s s1 : LRUKReplacer} (hw : WellFormed k s) {x : frame_id_t}
    (h : s.Evict = .ok (some x, s1)) :
    ∃ node, s.node_store_.find x = some node ∧ node.is_evictable_ = true ∧
      s1 = { s with
        node_store_ := s.node_store_.erase x
        curr_size_ := (s.curr_size_ + 2 ^ 64 - 1) % 2 ^ 64 } := by
  rcases Evict_cases h with ⟨h1, _⟩ | ⟨f, h1, _, h2, acc, h3, h4⟩
  · cases h1
  · cases h1
    rcases scan_evict_f _ h3 with h5 | ⟨p, hp, h5, h6⟩
    · rw [h4] at h5
      cases h5
    · rw [h4] at h6
      cases h6
      have hf := NodeStore.find_eq_some_of_mem hw.keys_nodup hp
      rw [Remove_of_evictable hf h5] at h2
      cases h2
      exact ⟨p.2, hf, h5, rfl⟩

/-- The oldest timestamp of every entry is defined and older than the clock. -/
theorem entries_end {k t0 n : Nat} {s : LRUKReplacer} (hw : WellFormed k s)
    (hst : Stamped t0 n s) :
    ∀ p ∈ s.node_store_, ∃ e, p.2.end_ = some e ∧ e < s.current_timestamp_ := by
  intro p hp
  cases he : p.2.end_ with
  | none =>
    simp only [LRUKNode.end_, List.getLast?_eq_none_iff] at he
    exact absurd he (hw.history_ne p hp)
  | some e =>
    exact ⟨e, rfl, hst.stamp_lt p hp e (List.mem_of_getLast?_eq_some he)⟩

/-- With an evictable entry in the map and a clock that has not wrapped around, `Evict`
returns an evictable frame that the loop has found best. -/
theorem Evict_best {k t0 n : Nat} {s : LRUKReplacer} (hw : WellFormed k s)
    (hst : Stamped t0 n s) (hn : t0 + n < 2 ^ 64)
    (hev : ∃ p ∈ s.node_store_, p.2.is_evictable_ = true) :
    ∃ x node e s1, s.Evict = .ok (some x, s1) ∧ s.node_store_.find x = some node ∧
      node.is_evictable_ = true ∧ node.end_ = some e ∧
      ∀ q ∈ s.node_store_, q.2.is_evictable_ = true → ∀ e1, q.2.end_ = some e1 →
        kDist s.k_ s.current_timestamp_ q.2 e1 ≤ kDist s.k_ s.current_timestamp_ node e ∧
        (kDist s.k_ s.current_timestamp_ q.2 e1 = INF → e ≤ e1) := by
  have ht : s.current_timestamp_ < 2 ^ 64 := by rw [hst.clock_eq]; exact hn
  obtain ⟨acc, hscan, hinv⟩ := (ScanInv.start s.k_ s.current_timestamp_).scan ht
    s.node_store_ (entries_end hw hst)
  rw [List.nil_append] at hinv
  obtain ⟨p, hp, hpe⟩ := hev
  cases hx : acc.evict_f with
  | none =>
    have := (hinv.unassigned hx).2 p hp
    rw [hpe] at this
    cases this
  | some x =>
    obtain ⟨node, e, h1, h2, h3, h4, h5⟩ := hinv.assigned x hx
    have hf := NodeStore.find_eq_some_of_mem hw.keys_nodup h1
    have hsize : s.curr_size_ ≠ 0 := by
      rw [hw.size_eq]
      intro h0
      have := List.countP_eq_zero.1 h0 p hp
      exact this hpe
    refine ⟨x, node, e, { s with
        node_store_ := s.node_store_.erase x
        curr_size_ := (s.curr_size_ + 2 ^ 64 - 1) % 2 ^ 64 }, ?_, hf, h2, h3, ?_⟩
    · simp only [Evict, hsize, if_false, hscan, hx, Remove_of_evictable hf h2]
    · intro q hq hqe e1 he1
      have := hinv.bound q hq hqe e1 he1
      rw [h4, h5] at this
      exact this

end LRUKReplacer

/-- The state after a call made in a reachable state is reachable. -/
theorem Reachable.call {num_frames k t0 n : Nat} {s s1 : LRUKReplacer}
    (h : Reachable num_frames k t0 n s) (c : Call) (hc : s.call c = .ok s1) :
    Reachable num_frames k t0 (n + accessCount [c]) s1 := by
  cases c with
  | RecordAccess f a => exact Reachable.RecordAccess f a h hc
  | SetEvictable f b =>
    simp only [LRUKReplacer.call, Except.ok.injEq] at hc
    exact hc ▸ Reachable.SetEvictable f b h
  | Evict =>
    simp only [LRUKReplacer.call] at hc
    cases he : s.Evict with
    | ok r =>
      obtain ⟨r, s2⟩ := r
      simp only [he, Except.ok.injEq] at hc
      exact hc ▸ Reachable.Evict h he
    | error e =>
      cases e with
      | Exception g st =>
        simp only [he, Except.ok.injEq] at hc
        rw [← hc, LRUKReplacer.Evict_exception he]
        exact h
      | Undefined => simp [he] at hc
  | Remove f =>
    simp only [LRUKReplacer.call] at hc
    cases he : s.Remove f with
    | ok s2 =>
      simp only [he, Except.ok.injEq] at hc
      exact hc ▸ Reachable.Remove f h he
    | error e =>
      cases e with
      | Exception g st =>
        simp only [he, Except.ok.injEq] at hc
        rw [← hc, (LRUKReplacer.Remove_exception he).2]
        exact h
      | Undefined => simp [he] at hc

theorem accessCount_cons (c : Call) (calls : List Call) :
    accessCount (c :: calls) = accessCount [c] + accessCount calls := by
  cases c <;> simp [accessCount]; omega

/-- The state after a sequence of calls made in a reachable state is reachable. -/
theorem Reachable.run {num_frames k t0 : Nat} (calls : List Call) {n : Nat}
    {s s1 : LRUKReplacer} (h : Reachable num_frames k t0 n s) (hc : s.run calls = .ok s1) :
    Reachable num_frames k t0 (n + accessCount calls) s1 := by
  induction calls generalizing n s with
  | nil =>
    simp only [LRUKReplacer.run, Except.ok.injEq] at hc
    exact hc ▸ h
  | cons c rest ih =>
    simp only [LRUKReplacer.run] at hc
    cases h1 : s.call c with
    | error e => simp [h1] at hc
    | ok s2 =>
      simp only [h1] at hc
      have := ih (h.call c h1) hc
      rw [accessCount_cons, ← Nat.add_assoc]
      exact this

/-- The state after a sequence of calls on a freshly constructed replacer is reachable. -/
theorem Reachable.of_run {num_frames k t0 : Nat} (calls : List Call) {s : LRUKReplacer}
    (hc : (LRUKReplacer.new num_frames k t0).run calls = .ok s) :
    Reachable num_frames k t0 (accessCount calls) s := by
  have := Reachable.run calls (Reachable.new : Reachable num_frames k t0 0 _) hc
  simpa using this

theorem demoState_reachable : Reachable 7 2 0 2 demoState :=
  Reachable.of_run demoCalls (by decide)

/-! ## The evictable count and the effects of `Remove` and `SetEvictable` -/

/-- `SetEvictable` leaves every history as it was. -/
theorem LRUKReplacer.history_SetEvictable (s : LRUKReplacer) (f : frame_id_t) (v : Bool)
    (g : frame_id_t) :
    ((s.SetEvictable f v).node_store_.find g).map LRUKNode.history_
      = (s.node_store_.find g).map LRUKNode.history_ := by
  unfold LRUKReplacer.SetEvictable
  cases hf : s.node_store_.find f with
  | none => rfl
  | some node =>
    simp only
    by_cases hx : xor v node.isEvictable = true
    · simp only [hx, if_true]
      by_cases hg : g = f
      · subst hg
        rw [NodeStore.find_set_self, hf]
        rfl
      · rw [NodeStore.find_set_ne _ _ hg]
    · rw [if_neg hx]

theorem LRUKReplacer.historyOf_SetEvictable (s : LRUKReplacer) (f : frame_id_t) (v : Bool)
    (g : frame_id_t) : (s.SetEvictable f v).historyOf g = s.historyOf g := by
  simp only [LRUKReplacer.historyOf, LRUKReplacer.history_SetEvictable]

/-- C1: in every state that calls of RecordAccess, SetEvictable, Evict and Remove reach from
a freshly constructed replacer, the entries of the registry have distinct frame ids and
Size() is the number of entries whose evictable flag is true. -/
theorem C1_size_is_evictable_count (num_frames k t0 n : Nat) (s : LRUKReplacer)
    (h : Reachable num_frames k t0 n s) :
    s.node_store_.keys.Nodup ∧ s.Size = s.node_store_.evictableCount :=
  ⟨h.wellFormed.keys_nodup, h.wellFormed.size_eq⟩

theorem C1_size_is_evictable_count_witness :
    Reachable 7 2 0 2 demoState ∧
      demoState.node_store_.keys.Nodup ∧
      demoState.Size = demoState.node_store_.evictableCount :=
  ⟨demoState_reachable, C1_size_is_evictable_count 7 2 0 2 demoState demoState_reachable⟩

/-- C6: in every state, Remove(f) throws exactly when f is tracked and its evictable flag is
false; what it throws is the exception about f, and the state of the replacer at the throw
is the state before the call, so the registry, the clock and Size() are unchanged. -/
theorem C6_remove_raises_iff (s : LRUKReplacer) (f : frame_id_t) :
    ((∃ e, s.Remove f = .error e) ↔
      ∃ node, s.node_store_.find f = some node ∧ node.is_evictable_ = false) ∧
    (∀ e, s.Remove f = .error e → e = .Exception f s) := by
  rcases LRUKReplacer.Remove_cases s f with ⟨hf, h1⟩ | ⟨node, hf, he, h1⟩ | ⟨node, hf, he, h1⟩
  · refine ⟨⟨?_, ?_⟩, ?_⟩
    · rintro ⟨e, h⟩
      rw [h1] at h
      cases h
    · rintro ⟨node, h, _⟩
      rw [hf] at h
      cases h
    · intro e h
      rw [h1] at h
      cases h
  · refine ⟨⟨fun _ => ⟨node, hf, he⟩, fun _ => ⟨_, h1⟩⟩, ?_⟩
    intro e h
    rw [h1] at h
    cases h
    rfl
  · refine ⟨⟨?_, ?_⟩, ?_⟩
    · rintro ⟨e, h⟩
      rw [h1] at h
      cases h
    · rintro ⟨node1, h, he1⟩
      rw [hf] at h
      cases h
      rw [he] at he1
      cases he1
    · intro e h
      rw [h1] at h
      cases h

/-- C8: Remove(f) on a frame that is not tracked returns with the state unchanged; on a
tracked evictable frame it returns with f no longer tracked, every other frame's record and
the clock unchanged, and, in a reachable state, Size() smaller by exactly one. -/
theorem C8_remove_effect (s : LRUKReplacer) (f : frame_id_t) :
    (¬ s.Tracked f → s.Remove f = .ok s) ∧
    (∀ node, s.node_store_.find f = some node → node.is_evictable_ = true →
      ∃ s1, s.Remove f = .ok s1 ∧ ¬ s1.Tracked f ∧
        (∀ g, g ≠ f → s1.node_store_.find g = s.node_store_.find g) ∧
        s1.current_timestamp_ = s.current_timestamp_ ∧
        s1.k_ = s.k_ ∧ s1.replacer_size_ = s.replacer_size_ ∧
        (∀ num_frames k t0 n, Reachable num_frames k t0 n s → s1.Size + 1 = s.Size)) := by
  refine ⟨?_, ?_⟩
  · intro h
    exact LRUKReplacer.Remove_of_not_tracked (not_not.1 h)
  · intro node hf he
    refine ⟨_, LRUKReplacer.Remove_of_evictable hf he, ?_, ?_, rfl, rfl, rfl, ?_⟩
    · exact fun h => h (NodeStore.find_erase_self _ _)
    · intro g hg
      exact NodeStore.find_erase_ne _ hg
    · intro num_frames k t0 n hr
      have hw := hr.wellFormed
      have hc := NodeStore.evictableCount_erase hw.keys_nodup hf
      have hs := hw.size_eq
      have hl := hw.size_lt
      simp only [he, if_true] at hc
      rw [LRUKReplacer.Size, LRUKReplacer.Size]
      show (s.curr_size_ + 2 ^ 64 - 1) % 2 ^ 64 + 1 = s.curr_size_
      omega

theorem C8_remove_effect_witness :
    demoState.node_store_.find 1 = some ⟨[0], 2, 1, true⟩ ∧
      Reachable 7 2 0 2 demoState ∧
      ∃ s1, demoState.Remove 1 = .ok s1 ∧ s1.Size + 1 = demoState.Size := by
  refine ⟨by decide, demoState_reachable, ?_⟩
  obtain ⟨s1, h1, _, _, _, _, _, h2⟩ :=
    (C8_remove_effect demoState 1).2 ⟨[0], 2, 1, true⟩ (by decide) rfl
  exact ⟨s1, h1, h2 7 2 0 2 demoState_reachable⟩

/-- C9: SetEvictable(f, v) leaves the state unchanged when f is not tracked or the flag of f
is v already; otherwise it sets the flag of f to v, keeps the rest of f's record, and, in a
reachable state, changes Size() by exactly one, up for v = true and down for v = false.  In
every case the clock, the records of the other frames and all histories are unchanged. -/
theorem C9_setEvictable_effect (s : LRUKReplacer) (f : frame_id_t) (v : Bool) :
    (¬ s.Tracked f → s.SetEvictable f v = s) ∧
    (∀ node, s.node_store_.find f = some node → node.is_evictable_ = v →
      s.SetEvictable f v = s) ∧
    (∀ node, s.node_store_.find f = some node → node.is_evictable_ ≠ v →
      (s.SetEvictable f v).node_store_.find f = some { node with is_evictable_ := v } ∧
      (∀ num_frames k t0 n, Reachable num_frames k t0 n s →
        (v = true → (s.SetEvictable f v).Size = s.Size + 1) ∧
        (v = false → (s.SetEvictable f v).Size + 1 = s.Size))) ∧
    (s.SetEvictable f v).current_timestamp_ = s.current_timestamp_ ∧
    (s.SetEvictable f v).k_ = s.k_ ∧
    (s.SetEvictable f v).replacer_size_ = s.replacer_size_ ∧
    (∀ g, g ≠ f → (s.SetEvictable f v).node_store_.find g = s.node_store_.find g) ∧
    (∀ g, ((s.SetEvictable f v).node_store_.find g).map LRUKNode.history_
      = (s.node_store_.find g).map LRUKNode.history_) := by
  cases hf : s.node_store_.find f with
  | none =>
    have h0 : s.SetEvictable f v = s := by simp [LRUKReplacer.SetEvictable, hf]
    simp [LRUKReplacer.Tracked, hf, h0]
  | some node =>
    by_cases hv : node.is_evictable_ = v
    · have h0 : s.SetEvictable f v = s := by
        simp [LRUKReplacer.SetEvictable, hf, LRUKNode.isEvictable, hv]
      simp [LRUKReplacer.Tracked, hf, h0, hv]
    · have hx : xor v node.isEvictable = true := by
        simp only [LRUKNode.isEvictable]
        revert hv
        cases v <;> cases node.is_evictable_ <;> simp
      have h0 : s.SetEvictable f v = { s with
          curr_size_ := (s.curr_size_ + (if v = true then 1 else 2 ^ 64 - 1)) % 2 ^ 64
          node_store_ := s.node_store_.set f (node.setEvictable v) } := by
        simp only [LRUKReplacer.SetEvictable, hf, hx, if_true]
      refine ⟨fun h => absurd (by simp [LRUKReplacer.Tracked, hf]) h, ?_, ?_, ?_, ?_, ?_, ?_, ?_⟩
      · intro node1 h1 h2
        cases h1
        exact absurd h2 hv
      · intro node1 h1 _
        cases h1
        refine ⟨?_, ?_⟩
        · rw [h0]
          exact NodeStore.find_set_self _ _ _
        · intro num_frames k t0 n hr
          have hw := hr.wellFormed
          have hw1 : (s.SetEvictable f v).curr_size_
              = (s.SetEvictable f v).node_store_.evictableCount :=
            (hw.SetEvictable f v).size_eq
          have hst : (s.SetEvictable f v).node_store_
              = s.node_store_.set f (node.setEvictable v) := by rw [h0]
          have hc := NodeStore.evictableCount_set (node.setEvictable v) hf
          have hb : (node.setEvictable v).is_evictable_ = v := rfl
          have hs := hw.size_eq
          rw [hb] at hc
          rw [hst] at hw1
          rw [LRUKReplacer.Size, LRUKReplacer.Size, hw1, hs]
          constructor
          · intro hv1
            subst hv1
            have hn : node.is_evictable_ = false := by
              cases hn : node.is_evictable_
              · rfl
              · exact absurd hn hv
            rw [hn] at hc
            simpa using hc
          · intro hv1
            subst hv1
            have hn : node.is_evictable_ = true := by
              cases hn : node.is_evictable_
              · exact absurd hn hv
              · rfl
            rw [hn] at hc
            simpa using hc
      · rw [h0]
      · rw [h0]
      · rw [h0]
      · intro g hg
        rw [h0]
        exact NodeStore.find_set_ne _ _ hg
      · intro g
        rw [h0]
        by_cases hg : g = f
        · subst hg
          show ((s.node_store_.set g (node.setEvictable v)).find g).map _ = _
          rw [NodeStore.find_set_self, hf]
          rfl
        · show ((s.node_store_.set f (node.setEvictable v)).find g).map _ = _
          rw [NodeStore.find_set_ne _ _ hg]

theorem C9_setEvictable_effect_witness :
    demoState.node_store_.find 2 = some ⟨[1], 2, 2, false⟩ ∧
      Reachable 7 2 0 2 demoState ∧
      (demoState.SetEvictable 2 true).node_store_.find 2 = some ⟨[1], 2, 2, true⟩ ∧
      (demoState.SetEvictable 2 true).Size = demoState.Size + 1 := by
  have h := (C9_setEvictable_effect demoState 2 true).2.2.1 ⟨[1], 2, 2, false⟩
    (by decide) (by decide)
  exact ⟨by decide, demoState_reachable, h.1, (h.2 7 2 0 2 demoState_reachable).1 rfl⟩

/-! ## The victim of `Evict` -/

theorem specKDistance_of_end {k t e : Nat} {node : LRUKNode} (he : node.end_ = some e) :
    specKDistance k t node
      = if node.history_.length = k then .Finite (t - e) else .Unbounded := by
  simp only [LRUKNode.end_] at he
  simp only [specKDistance, he]

/-- The order of the distances that the loop compares is the order of the k-distances of the
specification, as long as the clock is below `INF`. -/
theorem specKDistance_le_of_kDist {k t eq ex : Nat} {q x : LRUKNode}
    (hq : q.end_ = some eq) (hx : x.end_ = some ex) (hql : eq < t) (hxl : ex < t)
    (ht : t < INF)
    (h : LRUKReplacer.kDist k t q eq ≤ LRUKReplacer.kDist k t x ex) :
    (specKDistance k t q).le (specKDistance k t x) := by
  rw [specKDistance_of_end hq, specKDistance_of_end hx]
  by_cases h1 : x.history_.length = k
  · have hx1 := LRUKReplacer.kDist_of_full h1 hxl ht
    by_cases h2 : q.history_.length = k
    · have hq1 := LRUKReplacer.kDist_of_full h2 hql ht
      simp only [h1, h2, if_true, KDistance.le]
      omega
    · have hq1 := LRUKReplacer.kDist_of_not_full t eq h2
      omega
  · simp only [h1, if_false]
    split_ifs <;> exact True.intro

theorem scenarioB_state (num_frames t0 : Nat) (A B : frame_id_t) (hAB : A ≠ B)
    (h : t0 + 4 < 2 ^ 64) :
    (LRUKReplacer.new num_frames 2 t0).run (scenarioB A B) = .ok
      ⟨[(A, ⟨[t0 + 2, t0], 2, A, true⟩), (B, ⟨[t0 + 3, t0 + 1], 2, B, true⟩)],
        t0 + 4, 2, num_frames, 2⟩ := by
  have m1 : (t0 + 1) % 2 ^ 64 = t0 + 1 := Nat.mod_eq_of_lt (by omega)
  have m2 : (t0 + 1 + 1) % 2 ^ 64 = t0 + 2 := Nat.mod_eq_of_lt (by omega)
  have m3 : (t0 + 2 + 1) % 2 ^ 64 = t0 + 3 := Nat.mod_eq_of_lt (by omega)
  have m4 : (t0 + 3 + 1) % 2 ^ 64 = t0 + 4 := Nat.mod_eq_of_lt (by omega)
  have e1 : (LRUKReplacer.new num_frames 2 t0).RecordAccess A ⟨0⟩ = .ok
      ⟨[(A, ⟨[t0], 2, A, false⟩)], t0 + 1, 0, num_frames, 2⟩ := by
    rw [LRUKReplacer.RecordAccess_of_untracked _
      (by simp [LRUKReplacer.new, NodeStore.find]) (by simp [LRUKReplacer.new])]
    simp only [LRUKReplacer.new, m1, List.nil_append]
  have e2 : (⟨[(A, ⟨[t0], 2, A, false⟩)], t0 + 1, 0, num_frames, 2⟩ :
      LRUKReplacer).RecordAccess B ⟨0⟩ = .ok
      ⟨[(A, ⟨[t0], 2, A, false⟩), (B, ⟨[t0 + 1], 2, B, false⟩)],
        t0 + 2, 0, num_frames, 2⟩ := by
    rw [LRUKReplacer.RecordAccess_of_untracked _ (by simp [NodeStore.find, hAB]) (by simp)]
    simp only [m2, List.cons_append, List.nil_append]
  have e3 : (⟨[(A, ⟨[t0], 2, A, false⟩), (B, ⟨[t0 + 1], 2, B, false⟩)],
      t0 + 2, 0, num_frames, 2⟩ : LRUKReplacer).RecordAccess A ⟨0⟩ = .ok
      ⟨[(A, ⟨[t0 + 2, t0], 2, A, false⟩), (B, ⟨[t0 + 1], 2, B, false⟩)],
        t0 + 3, 0, num_frames, 2⟩ := by
    rw [LRUKReplacer.RecordAccess_of_tracked ⟨[t0], 2, A, false⟩ _
      (by simp [NodeStore.find]) (by simp)]
    simp only [m3]
    simp [NodeStore.set]
  have e4 : (⟨[(A, ⟨[t0 + 2, t0], 2, A, false⟩), (B, ⟨[t0 + 1], 2, B, false⟩)],
      t0 + 3, 0, num_frames, 2⟩ : LRUKReplacer).RecordAccess B ⟨0⟩ = .ok
      ⟨[(A, ⟨[t0 + 2, t0], 2, A, false⟩), (B, ⟨[t0 + 3, t0 + 1], 2, B, false⟩)],
        t0 + 4, 0, num_frames, 2⟩ := by
    rw [LRUKReplacer.RecordAccess_of_tracked ⟨[t0 + 1], 2, B, false⟩ _
      (by simp [NodeStore.find, hAB]) (by simp)]
    simp only [m4]
    simp [NodeStore.set, hAB]
  simp only [scenarioB, LRUKReplacer.run, LRUKReplacer.call, e1, e2, e3, e4]
  simp [LRUKReplacer.SetEvictable, NodeStore.find, NodeStore.set, LRUKNode.isEvictable,
    LRUKNode.setEvictable, hAB]

theorem stateB_reachable : Reachable 7 2 0 4 stateB :=
  Reachable.of_run (scenarioB 1 2) (by decide)

theorem frontState_reachable : Reachable 7 3 0 4 frontState :=
  Reachable.of_run frontCalls (by decide)

/-- In a reachable state whose clock has not wrapped around and is below `INF`, with an
evictable frame, `Evict` returns an evictable frame of greatest k-distance; if its
k-distance is unbounded, its oldest timestamp is older than that of every other evictable
frame of unbounded k-distance. -/
theorem Reachable.evict_victim {num_frames k t0 n : Nat} {s : LRUKReplacer}
    (h : Reachable num_frames k t0 n s) (hn : t0 + n < INF)
    (hev : ∃ f node, s.node_store_.find f = some node ∧ node.is_evictable_ = true) :
    ∃ x nodex ex s1, s.Evict = .ok (some x, s1) ∧ s.node_store_.find x = some nodex ∧
      nodex.is_evictable_ = true ∧ nodex.history_.getLast? = some ex ∧
      (∀ g nodeg, s.node_store_.find g = some nodeg → nodeg.is_evictable_ = true →
        (specKDistance k s.current_timestamp_ nodeg).le
          (specKDistance k s.current_timestamp_ nodex)) ∧
      ((∃ g nodeg, s.node_store_.find g = some nodeg ∧ nodeg.is_evictable_ = true ∧
          nodeg.history_.length < k) → nodex.history_.length < k) ∧
      (∀ g nodeg eg, g ≠ x → s.node_store_.find g = some nodeg →
        nodeg.is_evictable_ = true → nodeg.history_.length < k →
        nodeg.history_.getLast? = some eg → nodex.history_.length < k ∧ ex < eg) := by
  have hw := h.wellFormed
  have hn1 : t0 + n < 2 ^ 64 := by unfold INF at hn; omega
  have hst := h.stamped hn1
  have ht : s.current_timestamp_ < INF := by rw [hst.clock_eq]; exact hn
  obtain ⟨f, node, hf, hfe⟩ := hev
  obtain ⟨x, nodex, ex, s1, h1, h2, h3, h4, h5⟩ := LRUKReplacer.Evict_best hw hst hn1
    ⟨(f, node), NodeStore.mem_of_find_eq_some hf, hfe⟩
  rw [hw.k_eq] at h5
  have hxm := NodeStore.mem_of_find_eq_some h2
  obtain ⟨ex1, hx1, hxl⟩ := LRUKReplacer.entries_end hw hst _ hxm
  rw [h4] at hx1
  cases hx1
  -- an evictable frame with fewer than `k` accesses forces a victim with fewer than `k`
  have hshort : ∀ g nodeg, s.node_store_.find g = some nodeg → nodeg.is_evictable_ = true →
      nodeg.history_.length < k → nodex.history_.length < k ∧
        ∀ eg, nodeg.history_.getLast? = some eg → ex ≤ eg := by
    intro g nodeg hg hge hgl
    have hgm := NodeStore.mem_of_find_eq_some hg
    obtain ⟨eg, hg1, hgl1⟩ := LRUKReplacer.entries_end hw hst _ hgm
    have hb := h5 _ hgm hge eg hg1
    have hinf := LRUKReplacer.kDist_of_not_full s.current_timestamp_ eg (Nat.ne_of_lt hgl)
    have hle := LRUKReplacer.kDist_le k s.current_timestamp_ ex nodex
    have hxinf : LRUKReplacer.kDist k s.current_timestamp_ nodex ex = INF := by
      have := hb.1
      show LRUKReplacer.kDist k s.current_timestamp_ nodex ex = INF
      change LRUKReplacer.kDist k s.current_timestamp_ nodeg eg ≤ _ at this
      omega
    have hxne := (LRUKReplacer.kDist_eq_INF_iff hxl ht).1 hxinf
    have hxle := hw.history_le _ hxm
    refine ⟨by change nodex.history_.length ≤ k at hxle; omega, ?_⟩
    intro eg1 heg1
    have : eg1 = eg := by
      simp only [LRUKNode.end_] at hg1
      rw [heg1] at hg1
      exact Option.some.inj hg1
    subst this
    exact hb.2 hinf
  refine ⟨x, nodex, ex, s1, h1, h2, h3, h4, ?_, ?_, ?_⟩
  · intro g nodeg hg hge
    have hgm := NodeStore.mem_of_find_eq_some hg
    obtain ⟨eg, hg1, hgl1⟩ := LRUKReplacer.entries_end hw hst _ hgm
    exact specKDistance_le_of_kDist hg1 h4 hgl1 hxl ht (h5 _ hgm hge eg hg1).1
  · rintro ⟨g, nodeg, hg, hge, hgl⟩
    exact (hshort g nodeg hg hge hgl).1
  · intro g nodeg eg hgx hg hge hgl hgeg
    obtain ⟨hxs, hmin⟩ := hshort g nodeg hg hge hgl
    refine ⟨hxs, lt_of_le_of_ne (hmin eg hgeg) ?_⟩
    intro heq
    subst heq
    have := hst.unique _ hxm _ (NodeStore.mem_of_find_eq_some hg) ex
      (List.mem_of_getLast?_eq_some h4) (List.mem_of_getLast?_eq_some hgeg)
    exact hgx this.symm

/-! ## The claims about `Evict` -/

/-- C2: in a reachable state with at least one evictable frame (the 64-bit clock being
below `INF`, so that it has not wrapped around), `Evict` returns an evictable frame whose
k-distance is greatest among the evictable frames, the k-distance being the clock minus the
oldest timestamp for a history of exactly `k` timestamps and unbounded otherwise; if some
evictable frame has fewer than `k` accesses, so has the returned frame.  With `k = 2`, frame
`A` accessed first and third, frame `B` second and fourth, both evictable, `Evict` returns
`A`. -/
theorem C2_evict_greatest_kdistance :
    (∀ (num_frames k t0 n : Nat) (s : LRUKReplacer), 1 ≤ k →
      Reachable num_frames k t0 n s → t0 + n < INF →
      (∃ f node, s.node_store_.find f = some node ∧ node.is_evictable_ = true) →
      ∃ x nodex s1, s.Evict = .ok (some x, s1) ∧ s.node_store_.find x = some nodex ∧
        nodex.is_evictable_ = true ∧
        (∀ g nodeg, s.node_store_.find g = some nodeg → nodeg.is_evictable_ = true →
          (specKDistance k s.current_timestamp_ nodeg).le
            (specKDistance k s.current_timestamp_ nodex)) ∧
        ((∃ g nodeg, s.node_store_.find g = some nodeg ∧ nodeg.is_evictable_ = true ∧
            nodeg.history_.length < k) → nodex.history_.length < k)) ∧
    (∀ (num_frames t0 : Nat) (A B : frame_id_t), A ≠ B → t0 + 4 < INF →
      ∃ s s1, (LRUKReplacer.new num_frames 2 t0).run (scenarioB A B) = .ok s ∧
        s.Evict = .ok (some A, s1)) := by
  constructor
  · intro num_frames k t0 n s _ h hn hev
    obtain ⟨x, nodex, ex, s1, h1, h2, h3, _, h5, h6, _⟩ := h.evict_victim hn hev
    exact ⟨x, nodex, s1, h1, h2, h3, h5, h6⟩
  · intro num_frames t0 A B hAB ht
    have ht1 : t0 + 4 < 2 ^ 64 := by unfold INF at ht; omega
    have hrun := scenarioB_state num_frames t0 A B hAB ht1
    have hreach := Reachable.of_run (scenarioB A B) hrun
    have hBA : ¬ A = B := hAB
    have hfA : NodeStore.find [(A, (⟨[t0 + 2, t0], 2, A, true⟩ : LRUKNode)),
        (B, ⟨[t0 + 3, t0 + 1], 2, B, true⟩)] A = some ⟨[t0 + 2, t0], 2, A, true⟩ := by
      simp [NodeStore.find]
    have hfB : NodeStore.find [(A, (⟨[t0 + 2, t0], 2, A, true⟩ : LRUKNode)),
        (B, ⟨[t0 + 3, t0 + 1], 2, B, true⟩)] B = some ⟨[t0 + 3, t0 + 1], 2, B, true⟩ := by
      simp [NodeStore.find, hBA]
    obtain ⟨x, nodex, ex, s1, h1, h2, _, _, h5, _, _⟩ :=
      hreach.evict_victim (by simpa [accessCount, scenarioB] using ht) ⟨A, _, hfA, rfl⟩
    refine ⟨_, s1, hrun, ?_⟩
    by_cases hx : x = A
    · subst hx
      exact h1
    · exfalso
      have hxB : x = B := by
        by_contra hxB
        have hfx : NodeStore.find [(A, (⟨[t0 + 2, t0], 2, A, true⟩ : LRUKNode)),
            (B, ⟨[t0 + 3, t0 + 1], 2, B, true⟩)] x = none := by
          have h3 : ¬ A = x := fun e => hx e.symm
          have h4 : ¬ B = x := fun e => hxB e.symm
          simp [NodeStore.find, h3, h4]
        change NodeStore.find _ x = some nodex at h2
        rw [hfx] at h2
        cases h2
      subst hxB
      change NodeStore.find _ x = some nodex at h2
      rw [hfB] at h2
      cases h2
      have := h5 A _ hfA rfl
      simp only [specKDistance, List.length_cons, List.length_nil, List.getLast?_cons_cons,
        List.getLast?_singleton, KDistance.le] at this
      simp at this

/-- The general part of C2 at the state of scenario B with frames 1 and 2. -/
theorem C2_evict_greatest_kdistance_witness :
    (1 ≤ 2 ∧ Reachable 7 2 0 4 stateB ∧ 0 + 4 < INF ∧
      ∃ f node, stateB.node_store_.find f = some node ∧ node.is_evictable_ = true) ∧
    ∃ x nodex s1, stateB.Evict = .ok (some x, s1) ∧ stateB.node_store_.find x = some nodex ∧
      nodex.is_evictable_ = true ∧
      (∀ g nodeg, stateB.node_store_.find g = some nodeg → nodeg.is_evictable_ = true →
        (specKDistance 2 stateB.current_timestamp_ nodeg).le
          (specKDistance 2 stateB.current_timestamp_ nodex)) ∧
      ((∃ g nodeg, stateB.node_store_.find g = some nodeg ∧ nodeg.is_evictable_ = true ∧
          nodeg.history_.length < 2) → nodex.history_.length < 2) :=
  ⟨⟨by decide, stateB_reachable, by decide, 1, ⟨[2, 0], 2, 1, true⟩, by decide, rfl⟩,
    C2_evict_greatest_kdistance.1 7 2 0 4 stateB (by decide) stateB_reachable (by decide)
      ⟨1, ⟨[2, 0], 2, 1, true⟩, by decide, rfl⟩⟩

/-- C3, as the code has it: in a reachable state (the 64-bit clock being below `INF`) in
which at least one evictable frame has fewer than `k` recorded accesses, `Evict` returns an
evictable frame with fewer than `k` recorded accesses whose oldest (back) timestamp is
smaller than that of every other evictable frame with fewer than `k` recorded accesses. -/
theorem C3_evict_smallest_oldest_timestamp (num_frames k t0 n : Nat) (s : LRUKReplacer)
    (_hk : 1 ≤ k) (h : Reachable num_frames k t0 n s) (hn : t0 + n < INF)
    (hev : ∃ f node, s.node_store_.find f = some node ∧ node.is_evictable_ = true ∧
      node.history_.length < k) :
    ∃ x nodex ex s1, s.Evict = .ok (some x, s1) ∧ s.node_store_.find x = some nodex ∧
      nodex.is_evictable_ = true ∧ nodex.history_.length < k ∧
      nodex.history_.getLast? = some ex ∧
      ∀ g nodeg eg, g ≠ x → s.node_store_.find g = some nodeg →
        nodeg.is_evictable_ = true → nodeg.history_.length < k →
        nodeg.history_.getLast? = some eg → ex < eg := by
  obtain ⟨f, node, hf, hfe, hfl⟩ := hev
  obtain ⟨x, nodex, ex, s1, h1, h2, h3, h4, _, h6, h7⟩ := h.evict_victim hn ⟨f, node, hf, hfe⟩
  exact ⟨x, nodex, ex, s1, h1, h2, h3, h6 ⟨f, node, hf, hfe, hfl⟩, h4,
    fun g nodeg eg hg hgf hge hgl hgeg => (h7 g nodeg eg hg hgf hge hgl hgeg).2⟩

theorem C3_evict_smallest_oldest_timestamp_witness :
    (1 ≤ 3 ∧ Reachable 7 3 0 4 frontState ∧ 0 + 4 < INF ∧
      ∃ f node, frontState.node_store_.find f = some node ∧ node.is_evictable_ = true ∧
        node.history_.length < 3) ∧
    ∃ x nodex ex s1, frontState.Evict = .ok (some x, s1) ∧
      frontState.node_store_.find x = some nodex ∧
      nodex.is_evictable_ = true ∧ nodex.history_.length < 3 ∧
      nodex.history_.getLast? = some ex ∧
      ∀ g nodeg eg, g ≠ x → frontState.node_store_.find g = some nodeg →
        nodeg.is_evictable_ = true → nodeg.history_.length < 3 →
        nodeg.history_.getLast? = some eg → ex < eg :=
  ⟨⟨by decide, frontState_reachable, by decide, 0, ⟨[3, 0], 3, 0, true⟩, by decide, rfl,
      by decide⟩,
    C3_evict_smallest_oldest_timestamp 7 3 0 4 frontState (by decide) frontState_reachable
      (by decide) ⟨0, ⟨[3, 0], 3, 0, true⟩, by decide, rfl, by decide⟩⟩

/-- C3 as stated fails: with `k = 3`, frame 0 accessed at times 0 and 3 and frame 1 accessed
at times 1 and 2, both evictable, the state is reachable and has an evictable frame with
fewer than `k` accesses, but `Evict` returns frame 0, whose most recent timestamp 3 is not
the smallest: that of frame 1 is 2. -/
theorem C3_front_timestamp_counterexample :
    1 ≤ 3 ∧ Reachable 7 3 0 4 frontState ∧ 0 + 4 < INF ∧
      (∃ f node, frontState.node_store_.find f = some node ∧ node.is_evictable_ = true ∧
        node.history_.length < 3) ∧
      frontState.Evict = .ok (some 0, ⟨[(1, ⟨[2, 1], 3, 1, true⟩)], 4, 1, 7, 3⟩) ∧
      ¬ EvictsSmallestFront 3 frontState := by
  refine ⟨by decide, frontState_reachable, by decide,
    ⟨0, ⟨[3, 0], 3, 0, true⟩, by decide, rfl, by decide⟩, by decide, ?_⟩
  rintro ⟨x, nodex, s1, h1, h2, _, _, h5⟩
  have he : frontState.Evict = .ok (some 0, ⟨[(1, ⟨[2, 1], 3, 1, true⟩)], 4, 1, 7, 3⟩) := by
    decide
  rw [he] at h1
  cases h1
  have h0 : frontState.node_store_.find 0 = some ⟨[3, 0], 3, 0, true⟩ := by decide
  rw [h0] at h2
  cases h2
  have := h5 1 ⟨[2, 1], 3, 1, true⟩ (by decide) rfl (by decide) 3 2 rfl rfl
  omega

/-- C4: in a reachable state with `Size() > 0` (the 64-bit clock not having wrapped around),
`Evict` returns, without throwing and without reading `evict_f` before it is assigned, a
frame that was tracked with its evictable flag set immediately before the call. -/
theorem C4_evict_returns_evictable (num_frames k t0 n : Nat) (s : LRUKReplacer) (_hk : 1 ≤ k)
    (h : Reachable num_frames k t0 n s) (hn : t0 + n < 2 ^ 64) (hsize : 0 < s.Size) :
    ∃ x node s1, s.Evict = .ok (some x, s1) ∧ s.node_store_.find x = some node ∧
      node.is_evictable_ = true := by
  have hw := h.wellFormed
  have hst := h.stamped hn
  have hc : 0 < s.node_store_.evictableCount := by
    rw [← hw.size_eq]
    exact hsize
  obtain ⟨p, hp, hpe⟩ := List.countP_pos_iff.1 hc
  obtain ⟨x, node, e, s1, h1, h2, h3, _⟩ := LRUKReplacer.Evict_best hw hst hn ⟨p, hp, hpe⟩
  exact ⟨x, node, s1, h1, h2, h3⟩

theorem C4_evict_returns_evictable_witness :
    (1 ≤ 2 ∧ Reachable 7 2 0 2 demoState ∧ 0 + 2 < 2 ^ 64 ∧ 0 < demoState.Size) ∧
    ∃ x node s1, demoState.Evict = .ok (some x, s1) ∧
      demoState.node_store_.find x = some node ∧ node.is_evictable_ = true :=
  ⟨⟨by decide, demoState_reachable, by decide, by decide⟩,
    C4_evict_returns_evictable 7 2 0 2 demoState (by decide) demoState_reachable (by decide)
      (by decide)⟩

/-- C5: in a reachable state, `Evict` returns the empty result exactly when no tracked frame
is evictable, and then the state after the call is the state before it. -/
theorem C5_evict_empty_iff (num_frames k t0 n : Nat) (s : LRUKReplacer)
    (h : Reachable num_frames k t0 n s) :
    ((∃ s1, s.Evict = .ok (none, s1)) ↔
      ∀ f node, s.node_store_.find f = some node → node.is_evictable_ = false) ∧
    (∀ s1, s.Evict = .ok (none, s1) → s1 = s) := by
  have hw := h.wellFormed
  refine ⟨⟨?_, ?_⟩, ?_⟩
  · rintro ⟨s1, h1⟩ f node hf
    rcases LRUKReplacer.Evict_cases h1 with ⟨_, _, h0⟩ | ⟨g, hg, _⟩
    · rw [hw.size_eq] at h0
      have := List.countP_eq_zero.1 h0 (f, node) (NodeStore.mem_of_find_eq_some hf)
      simpa using this
    · cases hg
  · intro hall
    have h0 : s.curr_size_ = 0 := by
      rw [hw.size_eq]
      apply List.countP_eq_zero.2
      intro p hp
      have := hall p.1 p.2 (NodeStore.find_eq_some_of_mem hw.keys_nodup hp)
      simp [this]
    exact ⟨s, by simp only [LRUKReplacer.Evict, h0, if_true]⟩
  · intro s1 h1
    rcases LRUKReplacer.Evict_cases h1 with ⟨_, h2, _⟩ | ⟨g, hg, _⟩
    · exact h2
    · cases hg

theorem C5_evict_empty_iff_witness :
    Reachable 7 2 0 0 (LRUKReplacer.new 7 2 0) ∧
      ((∃ s1, (LRUKReplacer.new 7 2 0).Evict = .ok (none, s1)) ↔
        ∀ f node, (LRUKReplacer.new 7 2 0).node_store_.find f = some node →
          node.is_evictable_ = false) ∧
      (∀ s1, (LRUKReplacer.new 7 2 0).Evict = .ok (none, s1) → s1 = LRUKReplacer.new 7 2 0) :=
  ⟨Reachable.new, C5_evict_empty_iff 7 2 0 0 (LRUKReplacer.new 7 2 0) Reachable.new⟩

/-- C7: when `Evict` returns a frame X in a reachable state, the state after the call is the
state that `Remove(X)` returns from the state before it: X was tracked and evictable and is
no longer tracked, Size() is one less, and the clock and the records of all other frames
are unchanged. -/
theorem C7_evict_is_remove (num_frames k t0 n : Nat) (s s1 : LRUKReplacer) (x : frame_id_t)
    (h : Reachable num_frames k t0 n s) (he : s.Evict = .ok (some x, s1)) :
    s.Remove x = .ok s1 ∧
    (∃ node, s.node_store_.find x = some node ∧ node.is_evictable_ = true) ∧
    ¬ s1.Tracked x ∧ s1.Size + 1 = s.Size ∧
    s1.current_timestamp_ = s.current_timestamp_ ∧
    s1.k_ = s.k_ ∧ s1.replacer_size_ = s.replacer_size_ ∧
    (∀ g, g ≠ x → s1.node_store_.find g = s.node_store_.find g) := by
  have hw := h.wellFormed
  obtain ⟨node, hf, hev, rfl⟩ := LRUKReplacer.Evict_victim hw he
  have hc := NodeStore.evictableCount_erase hw.keys_nodup hf
  have hs := hw.size_eq
  have hl := hw.size_lt
  simp only [hev, if_true] at hc
  refine ⟨LRUKReplacer.Remove_of_evictable hf hev, ⟨node, hf, hev⟩,
    fun h0 => h0 (NodeStore.find_erase_self _ _), ?_, rfl, rfl, rfl,
    fun g hg => NodeStore.find_erase_ne _ hg⟩
  rw [LRUKReplacer.Size, LRUKReplacer.Size]
  show (s.curr_size_ + 2 ^ 64 - 1) % 2 ^ 64 + 1 = s.curr_size_
  omega

theorem C7_evict_is_remove_witness :
    (Reachable 7 2 0 4 stateB ∧
      stateB.Evict = .ok (some 1, ⟨[(2, ⟨[3, 1], 2, 2, true⟩)], 4, 1, 7, 2⟩)) ∧
    stateB.Remove 1 = .ok ⟨[(2, ⟨[3, 1], 2, 2, true⟩)], 4, 1, 7, 2⟩ :=
  ⟨⟨stateB_reachable, by decide⟩,
    (C7_evict_is_remove 7 2 0 4 stateB ⟨[(2, ⟨[3, 1], 2, 2, true⟩)], 4, 1, 7, 2⟩ 1
      stateB_reachable (by decide)).1⟩

/-! ## The window of `RecordAccess` -/

namespace LRUKReplacer

/-- `RecordAccess` leaves the records of the other frames as they were. -/
theorem find_RecordAccess_ne {s s1 : LRUKReplacer} {f g : frame_id_t} {a : AccessType}
    (h : s.RecordAccess f a = .ok s1) (hg : g ≠ f) :
    s1.node_store_.find g = s.node_store_.find g := by
  obtain ⟨store, node0, _, h2, _, rfl⟩ := RecordAccess_ok h
  show (store.set f _).find g = _
  rw [NodeStore.find_set_ne _ _ hg]
  rcases h2 with ⟨_, rfl, _⟩ | ⟨_, rfl⟩
  · exact NodeStore.find_append_ne _ _ hg
  · rfl

/-- The record of the frame after `RecordAccess`: the clock value in front of the history
before, without its last entry when it held `k_` entries. -/
theorem find_RecordAccess_self {s s1 : LRUKReplacer} {f : frame_id_t} {a : AccessType}
    (h : s.RecordAccess f a = .ok s1) :
    ∃ node1, s1.node_store_.find f = some node1 ∧
      node1.history_ = s.current_timestamp_ ::
        (if (s.historyOf f).length = s.k_ then (s.historyOf f).dropLast
          else s.historyOf f) ∧
      node1.is_evictable_ = ((s.node_store_.find f).map LRUKNode.is_evictable_).getD false := by
  obtain ⟨store, node0, _, h2, _, rfl⟩ := RecordAccess_ok h
  refine ⟨_, NodeStore.find_set_self _ _ _, ?_, ?_⟩
  · rcases h2 with ⟨hf, _, rfl⟩ | ⟨hf, _⟩
    · simp only [historyOf, hf, Option.map_none', Option.getD_none, LRUKNode.mk2]
    · simp only [historyOf, hf, Option.map_some', Option.getD_some]
  · rcases h2 with ⟨hf, _, rfl⟩ | ⟨hf, _⟩
    · simp only [hf, Option.map_none', Option.getD_none, LRUKNode.mk2]
    · simp only [hf, Option.map_some', Option.getD_some]

theorem historyOf_length_le {k : Nat} {s : LRUKReplacer} (hw : WellFormed k s)
    (f : frame_id_t) : (s.historyOf f).length ≤ k := by
  unfold historyOf
  cases hf : s.node_store_.find f with
  | none => simp
  | some node =>
    simp only [Option.map_some', Option.getD_some]
    exact hw.history_le _ (NodeStore.mem_of_find_eq_some hf)

theorem historyOf_eq_nil_iff {k : Nat} {s : LRUKReplacer} (hw : WellFormed k s)
    (f : frame_id_t) : s.historyOf f = [] ↔ ¬ s.Tracked f := by
  unfold historyOf Tracked
  cases hf : s.node_store_.find f with
  | none => simp
  | some node =>
    simp only [Option.map_some', Option.getD_some, ne_eq, not_not]
    constructor
    · intro h
      exact absurd h (hw.history_ne _ (NodeStore.mem_of_find_eq_some hf))
    · intro h
      cases h

/-- The window after `RecordAccess` in a well-formed state. -/
theorem historyOf_RecordAccess {k : Nat} {s s1 : LRUKReplacer} (hw : WellFormed k s)
    {f : frame_id_t} {a : AccessType} (h : s.RecordAccess f a = .ok s1) :
    s1.historyOf f = s.current_timestamp_ :: (s.historyOf f).take (k - 1) := by
  obtain ⟨node1, h1, h2, _⟩ := find_RecordAccess_self h
  have hle := historyOf_length_le hw f
  have e1 : s1.historyOf f = node1.history_ := by
    simp only [historyOf, h1, Option.map_some', Option.getD_some]
  rw [e1, h2, hw.k_eq]
  congr 1
  split_ifs with hk
  · rw [List.dropLast_eq_take, hk]
  · rw [List.take_of_length_le (by omega)]

end LRUKReplacer

/-- A logged state is reachable. -/
theorem Logged.reachable {num_frames k t0 : Nat} {s : LRUKReplacer}
    {log : frame_id_t → List Nat} (h : Logged num_frames k t0 s log) :
    ∃ n, Reachable num_frames k t0 n s := by
  induction h with
  | new => exact ⟨0, Reachable.new⟩
  | RecordAccess f a _ hr ih =>
    obtain ⟨n, hn⟩ := ih
    exact ⟨n + 1, Reachable.RecordAccess f a hn hr⟩
  | SetEvictable f b _ ih =>
    obtain ⟨n, hn⟩ := ih
    exact ⟨n, Reachable.SetEvictable f b hn⟩
  | Evict_none _ hr ih =>
    obtain ⟨n, hn⟩ := ih
    exact ⟨n, Reachable.Evict hn hr⟩
  | Evict_some _ hr ih =>
    obtain ⟨n, hn⟩ := ih
    exact ⟨n, Reachable.Evict hn hr⟩
  | Remove f _ hr ih =>
    obtain ⟨n, hn⟩ := ih
    exact ⟨n, Reachable.Remove f hn hr⟩
  | rehash store _ hp ih =>
    obtain ⟨n, hn⟩ := ih
    exact ⟨n, Reachable.rehash store hn hp⟩

/-- The history of a frame after `Remove` of a frame. -/
theorem LRUKReplacer.historyOf_Remove {k : Nat} {s s1 : LRUKReplacer} (hw : WellFormed k s)
    {f : frame_id_t} (h : s.Remove f = .ok s1) (g : frame_id_t) :
    s1.historyOf g = if g = f then [] else s.historyOf g := by
  rcases LRUKReplacer.Remove_cases s f with ⟨hf, h1⟩ | ⟨node, _, _, h1⟩ | ⟨node, hf, he, h1⟩
  · rw [h1] at h
    cases h
    split_ifs with hg
    · subst hg
      exact (LRUKReplacer.historyOf_eq_nil_iff hw g).2 (fun ht => ht hf)
    · rfl
  · rw [h1] at h
    cases h
  · rw [h1] at h
    cases h
    split_ifs with hg
    · subst hg
      simp only [LRUKReplacer.historyOf, NodeStore.find_erase_self, Option.map_none',
        Option.getD_none]
    · simp only [LRUKReplacer.historyOf, NodeStore.find_erase_ne _ hg]

/-- In a logged state the history of every frame is the first `k` entries of its log. -/
theorem Logged.window {num_frames k t0 : Nat} {s : LRUKReplacer}
    {log : frame_id_t → List Nat} (h : Logged num_frames k t0 s log) (hk : 1 ≤ k)
    (f : frame_id_t) : s.historyOf f = (log f).take k := by
  induction h generalizing f with
  | new => simp [LRUKReplacer.historyOf, LRUKReplacer.new, NodeStore.find]
  | @RecordAccess s s1 log g a hl hr ih =>
    obtain ⟨n, hn⟩ := hl.reachable
    by_cases hf : f = g
    · subst hf
      rw [LRUKReplacer.historyOf_RecordAccess hn.wellFormed hr, ih f, Function.update_same,
        List.take_take]
      obtain ⟨k1, rfl⟩ : ∃ k1, k = k1 + 1 := ⟨k - 1, by omega⟩
      simp
    · rw [Function.update_noteq hf]
      simp only [LRUKReplacer.historyOf, LRUKReplacer.find_RecordAccess_ne hr hf]
      exact ih f
  | @SetEvictable s log g b hl ih =>
    rw [LRUKReplacer.historyOf_SetEvictable s g b f]
    exact ih f
  | Evict_none hl hr ih =>
    rcases LRUKReplacer.Evict_cases hr with ⟨_, h1, _⟩ | ⟨g, hg, _⟩
    · rw [h1]
      exact ih f
    · cases hg
  | @Evict_some s s1 log x hl hr ih =>
    obtain ⟨n, hn⟩ := hl.reachable
    rcases LRUKReplacer.Evict_cases hr with ⟨h1, _⟩ | ⟨g, hg, _, h2, _⟩
    · cases h1
    · cases hg
      rw [LRUKReplacer.historyOf_Remove hn.wellFormed h2 f]
      by_cases hf : f = x
      · subst hf
        simp
      · rw [Function.update_noteq hf, if_neg hf]
        exact ih f
  | @Remove s s1 log g hl hr ih =>
    obtain ⟨n, hn⟩ := hl.reachable
    rw [LRUKReplacer.historyOf_Remove hn.wellFormed hr f]
    by_cases hf : f = g
    · subst hf
      simp
    · rw [Function.update_noteq hf, if_neg hf]
      exact ih f
  | @rehash s log store hl hp ih =>
    obtain ⟨n, hn⟩ := hl.reachable
    simp only [LRUKReplacer.historyOf, NodeStore.find_perm hn.wellFormed.keys_nodup hp f]
    exact ih f

theorem demoState_logged : Logged 7 2 0 demoState demoLog := by
  have h1 : Logged 7 2 0 ⟨[(1, ⟨[0], 2, 1, false⟩)], 1, 0, 7, 2⟩
      (Function.update (fun _ => []) 1 [0]) :=
    Logged.RecordAccess 1 ⟨0⟩ Logged.new (by decide)
  have h2 : Logged 7 2 0 ⟨[(1, ⟨[0], 2, 1, false⟩), (2, ⟨[1], 2, 2, false⟩)], 2, 0, 7, 2⟩
      demoLog :=
    Logged.RecordAccess 2 ⟨0⟩ h1 (by decide)
  have h3 := Logged.SetEvictable 1 true h2
  have e : (⟨[(1, ⟨[0], 2, 1, false⟩), (2, ⟨[1], 2, 2, false⟩)], 2, 0, 7, 2⟩ :
      LRUKReplacer).SetEvictable 1 true = demoState := by decide
  rw [e] at h3
  exact h3

/-- C10: with `k ≥ 1`, `RecordAccess(f)` in a reachable state with clock value `t` returns,
and afterwards the history of `f` is `t` followed by the first `k - 1` entries of the history
that `f` had before (the empty one if `f` was not tracked).  Hence, in every state and for
every frame, the history is the first `min(n, k)` entries of the frame's access log, which
holds the `n` timestamps of its accesses since it was last tracked anew, most recent first;
the frame is tracked exactly when that log is not empty. -/
theorem C10_recordAccess_window :
    (∀ (num_frames k t0 n : Nat) (s : LRUKReplacer) (f : frame_id_t) (a : AccessType),
      1 ≤ k → Reachable num_frames k t0 n s →
      ∃ s1, s.RecordAccess f a = .ok s1 ∧ s1.Tracked f ∧
        s1.historyOf f = s.current_timestamp_ :: (s.historyOf f).take (k - 1)) ∧
    (∀ (num_frames k t0 : Nat) (s : LRUKReplacer) (log : frame_id_t → List Nat),
      1 ≤ k → Logged num_frames k t0 s log →
      ∀ f, s.historyOf f = (log f).take k ∧
        (s.historyOf f).length = min (log f).length k ∧
        (s.Tracked f ↔ log f ≠ [])) := by
  constructor
  · intro num_frames k t0 n s f a hk h
    have hw := h.wellFormed
    obtain ⟨s1, h1⟩ := LRUKReplacer.RecordAccess_returns s f a (by rw [hw.k_eq]; exact hk)
    obtain ⟨node1, h2, _⟩ := LRUKReplacer.find_RecordAccess_self h1
    refine ⟨s1, h1, ?_, LRUKReplacer.historyOf_RecordAccess hw h1⟩
    intro h0
    rw [h2] at h0
    cases h0
  · intro num_frames k t0 s log hk h f
    obtain ⟨n, hn⟩ := h.reachable
    have hwin := h.window hk f
    refine ⟨hwin, ?_, ?_⟩
    · rw [hwin, List.length_take, Nat.min_comm]
    · have hnil := LRUKReplacer.historyOf_eq_nil_iff hn.wellFormed f
      rw [hwin] at hnil
      constructor
      · intro ht hl
        apply hnil.1 _ ht
        rw [hl]
        exact List.take_nil
      · intro hl
        by_contra ht
        have h0 := hnil.2 ht
        cases hlog : log f with
        | nil => exact hl hlog
        | cons t rest =>
          rw [hlog] at h0
          obtain ⟨k1, rfl⟩ : ∃ k1, k = k1 + 1 := ⟨k - 1, by omega⟩
          simp at h0

theorem C10_recordAccess_window_witness :
    (1 ≤ 2 ∧ Reachable 7 2 0 2 demoState ∧ Logged 7 2 0 demoState demoLog) ∧
    (∃ s1, demoState.RecordAccess 1 ⟨0⟩ = .ok s1 ∧ s1.Tracked 1 ∧
      s1.historyOf 1 = demoState.current_timestamp_ :: (demoState.historyOf 1).take (2 - 1)) ∧
    (demoState.historyOf 1 = (demoLog 1).take 2 ∧
      (demoState.historyOf 1).length = min (demoLog 1).length 2 ∧
      (demoState.Tracked 1 ↔ demoLog 1 ≠ [])) :=
  ⟨⟨by decide, demoState_reachable, demoState_logged⟩,
    C10_recordAccess_window.1 7 2 0 2 demoState 1 ⟨0⟩ (by decide) demoState_reachable,
    C10_recordAccess_window.2 7 2 0 demoState demoLog (by decide) demoState_logged 1⟩

/-! ## Histories of the reachable states -/

/-- C11: in every reachable state the history of every tracked frame holds at most `k`
timestamps, and, as long as the 64-bit clock has not wrapped around, it is strictly
decreasing from front to back. -/
theorem C11_history_bounded_decreasing (num_frames k t0 n : Nat) (s : LRUKReplacer)
    (_hk : 1 ≤ k) (h : Reachable num_frames k t0 n s) :
    (∀ f node, s.node_store_.find f = some node → node.history_.length ≤ k) ∧
    (t0 + n < 2 ^ 64 → ∀ f node, s.node_store_.find f = some node →
      node.history_.Pairwise (fun a b => b < a)) := by
  refine ⟨?_, ?_⟩
  · intro f node hf
    exact h.wellFormed.history_le _ (NodeStore.mem_of_find_eq_some hf)
  · intro hn f node hf
    exact (h.stamped hn).decreasing _ (NodeStore.mem_of_find_eq_some hf)

theorem C11_history_bounded_decreasing_witness :
    (1 ≤ 2 ∧ Reachable 7 2 0 4 stateB ∧ 0 + 4 < 2 ^ 64) ∧
    (∀ f node, stateB.node_store_.find f = some node → node.history_.length ≤ 2) ∧
    (∀ f node, stateB.node_store_.find f = some node →
      node.history_.Pairwise (fun a b => b < a)) :=
  ⟨⟨by decide, stateB_reachable, by decide⟩,
    (C11_history_bounded_decreasing 7 2 0 4 stateB (by decide) stateB_reachable).1,
    (C11_history_bounded_decreasing 7 2 0 4 stateB (by decide) stateB_reachable).2
      (by decide)⟩

/-- The loop of `Evict` runs to its end when the oldest timestamp of every entry is
defined. -/
theorem LRUKReplacer.scan_ok {k_ t : Nat} (m : NodeStore)
    (hm : ∀ p ∈ m, ∃ e, p.2.end_ = some e) (acc : LRUKReplacer.Scan) :
    ∃ acc1, LRUKReplacer.scan k_ t acc m = .ok acc1 := by
  induction m generalizing acc with
  | nil => exact ⟨acc, rfl⟩
  | cons p rest ih =>
    obtain ⟨e, he⟩ := hm p (List.mem_cons_self _ _)
    have hstep : ∃ acc2, LRUKReplacer.scanStep k_ t acc p = .ok acc2 := by
      cases hev : p.2.is_evictable_ with
      | false => exact ⟨_, LRUKReplacer.scanStep_not_evictable hev⟩
      | true => exact ⟨_, LRUKReplacer.scanStep_evictable hev he⟩
    obtain ⟨acc2, h2⟩ := hstep
    obtain ⟨acc1, h1⟩ := ih (fun q hq => hm q (List.mem_cons_of_mem _ hq)) acc2
    exact ⟨acc1, by simp only [LRUKReplacer.scan, h2, h1]⟩

/-- C19: in every reachable state every tracked frame has a non-empty history; so the
oldest timestamp of every entry is defined, the loop of `Evict` runs to its end without
reading the back of an empty history, and, with `k ≥ 1`, `RecordAccess` returns, without a
`pop_back()` on an empty history. -/
theorem C19_history_nonempty (num_frames k t0 n : Nat) (s : LRUKReplacer) (hk : 1 ≤ k)
    (h : Reachable num_frames k t0 n s) :
    (∀ f node, s.node_store_.find f = some node →
      node.history_ ≠ [] ∧ ∃ e, node.end_ = some e) ∧
    (∀ acc, ∃ acc1, LRUKReplacer.scan s.k_ s.current_timestamp_ acc s.node_store_
      = .ok acc1) ∧
    (∀ f a, ∃ s1, s.RecordAccess f a = .ok s1) := by
  have hw := h.wellFormed
  have hend : ∀ p ∈ s.node_store_, ∃ e, p.2.end_ = some e := by
    intro p hp
    cases he : p.2.end_ with
    | none =>
      simp only [LRUKNode.end_, List.getLast?_eq_none_iff] at he
      exact absurd he (hw.history_ne p hp)
    | some e => exact ⟨e, rfl⟩
  refine ⟨?_, LRUKReplacer.scan_ok _ hend, ?_⟩
  · intro f node hf
    have hm := NodeStore.mem_of_find_eq_some hf
    exact ⟨hw.history_ne _ hm, hend _ hm⟩
  · intro f a
    exact LRUKReplacer.RecordAccess_returns s f a (by rw [hw.k_eq]; exact hk)

theorem C19_history_nonempty_witness :
    (1 ≤ 2 ∧ Reachable 7 2 0 4 stateB) ∧
    (∀ f node, stateB.node_store_.find f = some node →
      node.history_ ≠ [] ∧ ∃ e, node.end_ = some e) ∧
    (∀ acc, ∃ acc1, LRUKReplacer.scan stateB.k_ stateB.current_timestamp_ acc
      stateB.node_store_ = .ok acc1) ∧
    (∀ f a, ∃ s1, stateB.RecordAccess f a = .ok s1) :=
  ⟨⟨by decide, stateB_reachable⟩,
    C19_history_nonempty 7 2 0 4 stateB (by decide) stateB_reachable⟩

/-! ## Algebraic properties of `SetEvictable` and `RecordAccess` -/

theorem LRUKReplacer.SetEvictable_of_untracked {s : LRUKReplacer} {f : frame_id_t}
    (v : Bool) (h : s.node_store_.find f = none) : s.SetEvictable f v = s := by
  simp only [LRUKReplacer.SetEvictable, h]

theorem LRUKReplacer.SetEvictable_of_same {s : LRUKReplacer} {f : frame_id_t}
    {node : LRUKNode} {v : Bool} (h : s.node_store_.find f = some node)
    (hv : node.is_evictable_ = v) : s.SetEvictable f v = s := by
  have hx : ¬ (xor v node.isEvictable = true) := by
    simp [LRUKNode.isEvictable, hv]
  unfold LRUKReplacer.SetEvictable
  rw [h]
  exact if_neg hx

theorem LRUKReplacer.SetEvictable_of_flip {s : LRUKReplacer} {f : frame_id_t}
    {node : LRUKNode} {v : Bool} (h : s.node_store_.find f = some node)
    (hv : node.is_evictable_ ≠ v) :
    s.SetEvictable f v = { s with
      curr_size_ := (s.curr_size_ + (if v = true then 1 else 2 ^ 64 - 1)) % 2 ^ 64
      node_store_ := s.node_store_.set f (node.setEvictable v) } := by
  have hx : xor v node.isEvictable = true := by
    simp only [LRUKNode.isEvictable]
    revert hv
    cases v <;> cases node.is_evictable_ <;> simp
  unfold LRUKReplacer.SetEvictable
  rw [h]
  exact if_pos hx

/-- C14: in every state, calling SetEvictable(f, v) twice in a row gives the same state, and
so the same Size(), as calling it once. -/
theorem C14_setEvictable_idempotent (s : LRUKReplacer) (f : frame_id_t) (v : Bool) :
    (s.SetEvictable f v).SetEvictable f v = s.SetEvictable f v ∧
    ((s.SetEvictable f v).SetEvictable f v).Size = (s.SetEvictable f v).Size := by
  have key : (s.SetEvictable f v).SetEvictable f v = s.SetEvictable f v := by
    cases hf : s.node_store_.find f with
    | none =>
      rw [LRUKReplacer.SetEvictable_of_untracked v hf,
        LRUKReplacer.SetEvictable_of_untracked v hf]
    | some node =>
      by_cases hv : node.is_evictable_ = v
      · rw [LRUKReplacer.SetEvictable_of_same hf hv, LRUKReplacer.SetEvictable_of_same hf hv]
      · rw [LRUKReplacer.SetEvictable_of_flip hf hv]
        have hf1 : (s.node_store_.set f (node.setEvictable v)).find f
            = some (node.setEvictable v) := NodeStore.find_set_self _ _ _
        exact LRUKReplacer.SetEvictable_of_same hf1 rfl
  exact ⟨key, by rw [key]⟩

/-- A call and the call without its hint give the same state. -/
theorem LRUKReplacer.call_dropHint (s : LRUKReplacer) (c : Call) :
    s.call c.dropHint = s.call c := by
  cases c <;> rfl

theorem LRUKReplacer.run_dropHint (s : LRUKReplacer) (calls : List Call) :
    s.run (calls.map Call.dropHint) = s.run calls := by
  induction calls generalizing s with
  | nil => rfl
  | cons c rest ih =>
    simp only [List.map_cons, LRUKReplacer.run, LRUKReplacer.call_dropHint]
    cases s.call c with
    | ok s1 => exact ih s1
    | error e => rfl

/-- C16: in every state, RecordAccess(f, h1) and RecordAccess(f, h2) give the same result
for any two access hints; so two sequences of calls that differ only in their hints leave
the replacer in the same state, from which Evict and Size() return the same. -/
theorem C16_access_hint_ignored :
    (∀ (s : LRUKReplacer) (f : frame_id_t) (h1 h2 : AccessType),
      s.RecordAccess f h1 = s.RecordAccess f h2) ∧
    (∀ (s : LRUKReplacer) (calls1 calls2 : List Call),
      calls1.map Call.dropHint = calls2.map Call.dropHint →
      s.run calls1 = s.run calls2 ∧
      ∀ s1 s2, s.run calls1 = .ok s1 → s.run calls2 = .ok s2 →
        s1.Evict = s2.Evict ∧ s1.Size = s2.Size) := by
  refine ⟨fun s f h1 h2 => rfl, ?_⟩
  intro s calls1 calls2 h
  have hrun : s.run calls1 = s.run calls2 := by
    rw [← LRUKReplacer.run_dropHint s calls1, ← LRUKReplacer.run_dropHint s calls2, h]
  refine ⟨hrun, ?_⟩
  intro s1 s2 h1 h2
  rw [hrun, h2] at h1
  cases h1
  exact ⟨rfl, rfl⟩

theorem C16_access_hint_ignored_witness :
    ([Call.RecordAccess 1 ⟨1⟩, Call.RecordAccess 2 ⟨2⟩].map Call.dropHint
        = [Call.RecordAccess 1 ⟨3⟩, Call.RecordAccess 2 ⟨0⟩].map Call.dropHint) ∧
    (LRUKReplacer.new 7 2 0).run [Call.RecordAccess 1 ⟨1⟩, Call.RecordAccess 2 ⟨2⟩]
      = (LRUKReplacer.new 7 2 0).run [Call.RecordAccess 1 ⟨3⟩, Call.RecordAccess 2 ⟨0⟩] :=
  ⟨by decide,
    (C16_access_hint_ignored.2 (LRUKReplacer.new 7 2 0) _ _ (by decide)).1⟩

/-- C15: with `k ≥ 1`, RecordAccess(f) returns in every state; it advances the clock by
exactly one (as long as the 64-bit clock does not wrap around), leaves Size(), the evictable
flag of every tracked frame and the record of every other frame unchanged, and, when `f` was
not tracked, creates the record of `f` with the clock value as its only timestamp and with
evictable = false.  So after any sequence of calls on a new replacer the clock is its initial
value plus the number of RecordAccess calls in the sequence. -/
theorem C15_recordAccess_frame :
    (∀ (s : LRUKReplacer) (f : frame_id_t) (a : AccessType), 1 ≤ s.k_ →
      ∃ s1, s.RecordAccess f a = .ok s1 ∧
        (s.current_timestamp_ + 1 < 2 ^ 64 →
          s1.current_timestamp_ = s.current_timestamp_ + 1) ∧
        s1.Size = s.Size ∧ s1.k_ = s.k_ ∧ s1.replacer_size_ = s.replacer_size_ ∧
        (∀ g node, s.node_store_.find g = some node →
          ∃ node1, s1.node_store_.find g = some node1 ∧
            node1.is_evictable_ = node.is_evictable_) ∧
        (∀ g, g ≠ f → s1.node_store_.find g = s.node_store_.find g) ∧
        (s.node_store_.find f = none →
          s1.node_store_.find f = some ⟨[s.current_timestamp_], s.k_, f, false⟩)) ∧
    (∀ (num_frames k t0 : Nat) (calls : List Call) (s : LRUKReplacer),
      (LRUKReplacer.new num_frames k t0).run calls = .ok s →
      t0 + accessCount calls < 2 ^ 64 →
      s.current_timestamp_ = t0 + accessCount calls) := by
  refine ⟨?_, ?_⟩
  · intro s f a hk
    obtain ⟨s1, h1⟩ := LRUKReplacer.RecordAccess_returns s f a hk
    have hfields : s1.current_timestamp_ = (s.current_timestamp_ + 1) % 2 ^ 64 ∧
        s1.curr_size_ = s.curr_size_ ∧ s1.k_ = s.k_ ∧
        s1.replacer_size_ = s.replacer_size_ := by
      obtain ⟨store, node0, _, _, _, h2⟩ := LRUKReplacer.RecordAccess_ok h1
      rw [h2]
      exact ⟨rfl, rfl, rfl, rfl⟩
    refine ⟨s1, h1, ?_, ?_, hfields.2.2.1, hfields.2.2.2, ?_, ?_, ?_⟩
    · intro hlt
      rw [hfields.1]
      exact Nat.mod_eq_of_lt hlt
    · rw [LRUKReplacer.Size, LRUKReplacer.Size]
      exact hfields.2.1
    · intro g node hg
      by_cases hgf : g = f
      · subst hgf
        obtain ⟨node1, h2, _, h4⟩ := LRUKReplacer.find_RecordAccess_self h1
        refine ⟨node1, h2, ?_⟩
        rw [h4, hg]
        rfl
      · exact ⟨node, by rw [LRUKReplacer.find_RecordAccess_ne h1 hgf]; exact hg, rfl⟩
    · intro g hg
      exact LRUKReplacer.find_RecordAccess_ne h1 hg
    · intro hf
      have hk0 : s.k_ ≠ 0 := by omega
      rw [LRUKReplacer.RecordAccess_of_untracked a hf hk0] at h1
      cases h1
      exact NodeStore.find_append_self _ hf
  · intro num_frames k t0 calls s hrun hn
    exact ((Reachable.of_run calls hrun).stamped hn).clock_eq

theorem C15_recordAccess_frame_witness :
    (1 ≤ demoState.k_ ∧ demoState.current_timestamp_ + 1 < 2 ^ 64 ∧
      (LRUKReplacer.new 7 2 0).run demoCalls = .ok demoState ∧
      0 + accessCount demoCalls < 2 ^ 64) ∧
    (∃ s1, demoState.RecordAccess 3 ⟨0⟩ = .ok s1 ∧
      s1.current_timestamp_ = demoState.current_timestamp_ + 1 ∧
      s1.Size = demoState.Size) ∧
    demoState.current_timestamp_ = 0 + accessCount demoCalls := by
  obtain ⟨s1, h1, h2, h3, _⟩ := C15_recordAccess_frame.1 demoState 3 ⟨0⟩ (by decide)
  exact ⟨⟨by decide, by decide, by decide, by decide⟩, ⟨s1, h1, h2 (by decide), h3⟩,
    C15_recordAccess_frame.2 7 2 0 demoCalls demoState (by decide) (by decide)⟩

/-- C17: in every reachable state, as long as the 64-bit clock has not wrapped around,
every timestamp of every history is smaller than the clock, no timestamp occurs twice in a
history, and no timestamp occurs in the histories of two frames.  So two distinct tracked
frames have different oldest timestamps, and two distinct frames with `k` timestamps each
have different k-distances, both as the specification defines them and as the loop of
`Evict` computes them. -/
theorem C17_timestamps_unique (num_frames k t0 n : Nat) (s : LRUKReplacer) (_hk : 1 ≤ k)
    (h : Reachable num_frames k t0 n s) (hn : t0 + n < 2 ^ 64) :
    (∀ f node t, s.node_store_.find f = some node → t ∈ node.history_ →
      t < s.current_timestamp_) ∧
    (∀ f node, s.node_store_.find f = some node → node.history_.Nodup) ∧
    (∀ f g nodef nodeg t, s.node_store_.find f = some nodef →
      s.node_store_.find g = some nodeg → t ∈ nodef.history_ → t ∈ nodeg.history_ →
      f = g) ∧
    (∀ f g nodef nodeg ef eg, f ≠ g → s.node_store_.find f = some nodef →
      s.node_store_.find g = some nodeg → nodef.history_.getLast? = some ef →
      nodeg.history_.getLast? = some eg →
      ef ≠ eg ∧
      (nodef.history_.length = k → nodeg.history_.length = k →
        specKDistance k s.current_timestamp_ nodef
          ≠ specKDistance k s.current_timestamp_ nodeg ∧
        LRUKReplacer.kDist k s.current_timestamp_ nodef ef
          ≠ LRUKReplacer.kDist k s.current_timestamp_ nodeg eg)) := by
  have hst := h.stamped hn
  have ht : s.current_timestamp_ < 2 ^ 64 := by rw [hst.clock_eq]; exact hn
  refine ⟨?_, ?_, ?_, ?_⟩
  · intro f node t hf htm
    exact hst.stamp_lt _ (NodeStore.mem_of_find_eq_some hf) t htm
  · intro f node hf
    have := hst.decreasing _ (NodeStore.mem_of_find_eq_some hf)
    exact List.Pairwise.imp (fun hab => Nat.ne_of_gt hab) this
  · intro f g nodef nodeg t hf hg htf htg
    exact hst.unique _ (NodeStore.mem_of_find_eq_some hf) _
      (NodeStore.mem_of_find_eq_some hg) t htf htg
  · intro f g nodef nodeg ef eg hfg hf hg hef heg
    have hfm := NodeStore.mem_of_find_eq_some hf
    have hgm := NodeStore.mem_of_find_eq_some hg
    have hne : ef ≠ eg := by
      intro heq
      subst heq
      exact hfg (hst.unique _ hfm _ hgm ef (List.mem_of_getLast?_eq_some hef)
        (List.mem_of_getLast?_eq_some heg))
    have hfl := hst.stamp_lt _ hfm ef (List.mem_of_getLast?_eq_some hef)
    have hgl := hst.stamp_lt _ hgm eg (List.mem_of_getLast?_eq_some heg)
    refine ⟨hne, ?_⟩
    intro hkf hkg
    constructor
    · simp only [specKDistance, hkf, hkg, if_true, hef, heg, ne_eq, KDistance.Finite.injEq]
      change ef < s.current_timestamp_ at hfl
      change eg < s.current_timestamp_ at hgl
      omega
    · simp only [LRUKReplacer.kDist, LRUKNode.size, hkf, hkg, if_true, ne_eq]
      change ef < s.current_timestamp_ at hfl
      change eg < s.current_timestamp_ at hgl
      omega

theorem C17_timestamps_unique_witness :
    (1 ≤ 2 ∧ Reachable 7 2 0 4 stateB ∧ 0 + 4 < 2 ^ 64) ∧
    (∀ f node t, stateB.node_store_.find f = some node → t ∈ node.history_ →
      t < stateB.current_timestamp_) ∧
    (∀ f node, stateB.node_store_.find f = some node → node.history_.Nodup) :=
  ⟨⟨by decide, stateB_reachable, by decide⟩,
    (C17_timestamps_unique 7 2 0 4 stateB (by decide) stateB_reachable (by decide)).1,
    (C17_timestamps_unique 7 2 0 4 stateB (by decide) stateB_reachable (by decide)).2.1⟩

/-- C13: when `Evict` returns frame X in a reachable state, then in the state after it
Remove(X) returns with the state unchanged, SetEvictable(X, v) leaves the state unchanged
for both values of `v`, and RecordAccess(X) returns with a record for X that holds the new
timestamp only and is not evictable, whatever the record of X was before the eviction. -/
theorem C13_evicted_frame_fresh (num_frames k t0 n : Nat) (s s1 : LRUKReplacer)
    (x : frame_id_t) (h : Reachable num_frames k t0 n s)
    (he : s.Evict = .ok (some x, s1)) :
    ¬ s1.Tracked x ∧ s1.Remove x = .ok s1 ∧ (∀ v, s1.SetEvictable x v = s1) ∧
    (∀ a, ∃ s2, s1.RecordAccess x a = .ok s2 ∧
      s2.node_store_.find x = some ⟨[s1.current_timestamp_], s1.k_, x, false⟩ ∧
      s2.historyOf x = [s1.current_timestamp_]) := by
  have hw := h.wellFormed
  obtain ⟨node, hf, hev, hs1⟩ := LRUKReplacer.Evict_victim hw he
  have hx : s1.node_store_.find x = none := by
    rw [hs1]
    exact NodeStore.find_erase_self _ _
  have hk : s1.k_ ≠ 0 := by
    have hm := NodeStore.mem_of_find_eq_some hf
    have h1 := hw.history_ne _ hm
    have h2 := hw.history_le _ hm
    have h3 : 0 < node.history_.length := List.length_pos.2 h1
    have h4 : s1.k_ = k := by rw [hs1]; exact hw.k_eq
    change node.history_.length ≤ k at h2
    omega
  refine ⟨fun ht => ht hx, LRUKReplacer.Remove_of_not_tracked hx,
    fun v => LRUKReplacer.SetEvictable_of_untracked v hx, ?_⟩
  intro a
  have hfind : (s1.node_store_ ++ [(x, (⟨[s1.current_timestamp_], s1.k_, x, false⟩ :
      LRUKNode))]).find x = some ⟨[s1.current_timestamp_], s1.k_, x, false⟩ :=
    NodeStore.find_append_self _ hx
  refine ⟨_, LRUKReplacer.RecordAccess_of_untracked a hx hk, hfind, ?_⟩
  simp only [LRUKReplacer.historyOf, hfind, Option.map_some', Option.getD_some]

theorem C13_evicted_frame_fresh_witness :
    (Reachable 7 2 0 4 stateB ∧
      stateB.Evict = .ok (some 1, ⟨[(2, ⟨[3, 1], 2, 2, true⟩)], 4, 1, 7, 2⟩)) ∧
    (∀ a, ∃ s2,
      (⟨[(2, ⟨[3, 1], 2, 2, true⟩)], 4, 1, 7, 2⟩ : LRUKReplacer).RecordAccess 1 a = .ok s2 ∧
      s2.node_store_.find 1 = some ⟨[4], 2, 1, false⟩ ∧ s2.historyOf 1 = [4]) :=
  ⟨⟨stateB_reachable, by decide⟩,
    (C13_evicted_frame_fresh 7 2 0 4 stateB ⟨[(2, ⟨[3, 1], 2, 2, true⟩)], 4, 1, 7, 2⟩ 1
      stateB_reachable (by decide)).2.2.2⟩

/-! ## Plain LRU among frames with a single access -/

theorem scenarioA_state (num_frames t0 : Nat) (h : t0 + 3 < 2 ^ 64) :
    (LRUKReplacer.new num_frames 2 t0).run scenarioA = .ok
      ⟨[(1, ⟨[t0], 2, 1, true⟩), (2, ⟨[t0 + 1], 2, 2, true⟩), (3, ⟨[t0 + 2], 2, 3, true⟩)],
        t0 + 3, 3, num_frames, 2⟩ := by
  have h12 : ¬ (1 : frame_id_t) = 2 := by decide
  have h13 : ¬ (1 : frame_id_t) = 3 := by decide
  have h23 : ¬ (2 : frame_id_t) = 3 := by decide
  have m1 : (t0 + 1) % 2 ^ 64 = t0 + 1 := Nat.mod_eq_of_lt (by omega)
  have m2 : (t0 + 1 + 1) % 2 ^ 64 = t0 + 2 := Nat.mod_eq_of_lt (by omega)
  have m3 : (t0 + 2 + 1) % 2 ^ 64 = t0 + 3 := Nat.mod_eq_of_lt (by omega)
  have e1 : (LRUKReplacer.new num_frames 2 t0).RecordAccess 1 ⟨0⟩ = .ok
      ⟨[(1, ⟨[t0], 2, 1, false⟩)], t0 + 1, 0, num_frames, 2⟩ := by
    rw [LRUKReplacer.RecordAccess_of_untracked _
      (by simp [LRUKReplacer.new, NodeStore.find]) (by simp [LRUKReplacer.new])]
    simp only [LRUKReplacer.new, m1, List.nil_append]
  have e2 : (⟨[(1, ⟨[t0], 2, 1, false⟩)], t0 + 1, 0, num_frames, 2⟩ :
      LRUKReplacer).RecordAccess 2 ⟨0⟩ = .ok
      ⟨[(1, ⟨[t0], 2, 1, false⟩), (2, ⟨[t0 + 1], 2, 2, false⟩)],
        t0 + 2, 0, num_frames, 2⟩ := by
    rw [LRUKReplacer.RecordAccess_of_untracked _ (by simp [NodeStore.find, h12]) (by simp)]
    simp only [m2, List.cons_append, List.nil_append]
  have e3 : (⟨[(1, ⟨[t0], 2, 1, false⟩), (2, ⟨[t0 + 1], 2, 2, false⟩)],
      t0 + 2, 0, num_frames, 2⟩ : LRUKReplacer).RecordAccess 3 ⟨0⟩ = .ok
      ⟨[(1, ⟨[t0], 2, 1, false⟩), (2, ⟨[t0 + 1], 2, 2, false⟩),
          (3, ⟨[t0 + 2], 2, 3, false⟩)], t0 + 3, 0, num_frames, 2⟩ := by
    rw [LRUKReplacer.RecordAccess_of_untracked _ (by simp [NodeStore.find, h13, h23])
      (by simp)]
    simp only [m3, List.cons_append, List.nil_append]
  simp only [scenarioA, LRUKReplacer.run, LRUKReplacer.call, e1, e2, e3]
  simp [LRUKReplacer.SetEvictable, NodeStore.find, NodeStore.set, LRUKNode.isEvictable,
    LRUKNode.setEvictable, h12, h13, h23]

theorem stateA_reachable : Reachable 7 2 0 3 stateA :=
  Reachable.of_run scenarioA (by decide)

/-- C12: with `k ≥ 2`, in a reachable state (the 64-bit clock being below `INF`) with an
evictable frame in which every evictable frame has exactly one recorded access, `Evict`
returns the evictable frame whose access has the smallest timestamp, the one recorded
earliest.  After single accesses to frames 1, 2 and 3 in that order, with all three made
evictable and `k = 2`, `Evict` returns frame 1. -/
theorem C12_evict_single_access_lru :
    (∀ (num_frames k t0 n : Nat) (s : LRUKReplacer), 2 ≤ k →
      Reachable num_frames k t0 n s → t0 + n < INF →
      (∃ f node, s.node_store_.find f = some node ∧ node.is_evictable_ = true) →
      (∀ f node, s.node_store_.find f = some node → node.is_evictable_ = true →
        node.history_.length = 1) →
      ∃ x nodex tx s1, s.Evict = .ok (some x, s1) ∧ s.node_store_.find x = some nodex ∧
        nodex.is_evictable_ = true ∧ nodex.history_ = [tx] ∧
        ∀ g nodeg tg, g ≠ x → s.node_store_.find g = some nodeg →
          nodeg.is_evictable_ = true → nodeg.history_ = [tg] → tx < tg) ∧
    (∀ (num_frames t0 : Nat), t0 + 3 < INF →
      ∃ s s1, (LRUKReplacer.new num_frames 2 t0).run scenarioA = .ok s ∧
        s.Evict = .ok (some 1, s1)) := by
  have general : ∀ (num_frames k t0 n : Nat) (s : LRUKReplacer), 2 ≤ k →
      Reachable num_frames k t0 n s → t0 + n < INF →
      (∃ f node, s.node_store_.find f = some node ∧ node.is_evictable_ = true) →
      (∀ f node, s.node_store_.find f = some node → node.is_evictable_ = true →
        node.history_.length = 1) →
      ∃ x nodex tx s1, s.Evict = .ok (some x, s1) ∧ s.node_store_.find x = some nodex ∧
        nodex.is_evictable_ = true ∧ nodex.history_ = [tx] ∧
        ∀ g nodeg tg, g ≠ x → s.node_store_.find g = some nodeg →
          nodeg.is_evictable_ = true → nodeg.history_ = [tg] → tx < tg := by
    intro num_frames k t0 n s hk h hn hev hone
    obtain ⟨x, nodex, ex, s1, h1, h2, h3, h4, _, _, h7⟩ := h.evict_victim hn hev
    have hlen := hone x nodex h2 h3
    have hx : nodex.history_ = [ex] := by
      cases hh : nodex.history_ with
      | nil => rw [hh] at hlen; cases hlen
      | cons t rest =>
        cases rest with
        | nil =>
          rw [hh] at h4
          simp only [List.getLast?_singleton, Option.some.injEq] at h4
          rw [h4]
        | cons t1 rest1 => rw [hh] at hlen; simp at hlen
    refine ⟨x, nodex, ex, s1, h1, h2, h3, hx, ?_⟩
    intro g nodeg tg hgx hg hge hgh
    refine (h7 g nodeg tg hgx hg hge ?_ ?_).2
    · rw [hgh, List.length_singleton]
      omega
    · rw [hgh]
      rfl
  refine ⟨general, ?_⟩
  intro num_frames t0 ht
  have ht1 : t0 + 3 < 2 ^ 64 := by unfold INF at ht; omega
  have hrun := scenarioA_state num_frames t0 ht1
  have hreach := Reachable.of_run scenarioA hrun
  have h12 : ¬ (1 : frame_id_t) = 2 := by decide
  have h13 : ¬ (1 : frame_id_t) = 3 := by decide
  have h23 : ¬ (2 : frame_id_t) = 3 := by decide
  have hf1 : NodeStore.find [(1, (⟨[t0], 2, 1, true⟩ : LRUKNode)),
      (2, ⟨[t0 + 1], 2, 2, true⟩), (3, ⟨[t0 + 2], 2, 3, true⟩)] 1
      = some ⟨[t0], 2, 1, true⟩ := by simp [NodeStore.find]
  have hall : ∀ f node, NodeStore.find [(1, (⟨[t0], 2, 1, true⟩ : LRUKNode)),
      (2, ⟨[t0 + 1], 2, 2, true⟩), (3, ⟨[t0 + 2], 2, 3, true⟩)] f = some node →
      (f = 1 ∧ node = ⟨[t0], 2, 1, true⟩) ∨ (f = 2 ∧ node = ⟨[t0 + 1], 2, 2, true⟩) ∨
        (f = 3 ∧ node = ⟨[t0 + 2], 2, 3, true⟩) := by
    intro f node hf
    simp only [NodeStore.find] at hf
    split_ifs at hf with c1 c2 c3
    · exact Or.inl ⟨c1.symm, (Option.some.inj hf).symm⟩
    · exact Or.inr (Or.inl ⟨c2.symm, (Option.some.inj hf).symm⟩)
    · exact Or.inr (Or.inr ⟨c3.symm, (Option.some.inj hf).symm⟩)
  obtain ⟨x, nodex, tx, s1, g1, g2, _, g4, g5⟩ := general num_frames 2 t0 _ _ (le_refl 2)
    hreach (by simpa [accessCount, scenarioA] using ht) ⟨1, _, hf1, rfl⟩
    (by
      intro f node hf _
      rcases hall f node hf with ⟨_, rfl⟩ | ⟨_, rfl⟩ | ⟨_, rfl⟩ <;> rfl)
  refine ⟨_, s1, hrun, ?_⟩
  by_cases hx : x = 1
  · subst hx
    exact g1
  · exfalso
    have := g5 1 _ t0 (fun e => hx e.symm) hf1 rfl rfl
    rcases hall x nodex g2 with ⟨hx1, _⟩ | ⟨_, rfl⟩ | ⟨_, rfl⟩
    · exact hx hx1
    · simp only [List.cons.injEq, and_true] at g4
      omega
    · simp only [List.cons.injEq, and_true] at g4
      omega

theorem C12_evict_single_access_lru_witness :
    (2 ≤ 2 ∧ Reachable 7 2 0 3 stateA ∧ 0 + 3 < INF ∧
      (∃ f node, stateA.node_store_.find f = some node ∧ node.is_evictable_ = true) ∧
      (∀ f node, stateA.node_store_.find f = some node → node.is_evictable_ = true →
        node.history_.length = 1)) ∧
    ∃ x nodex tx s1, stateA.Evict = .ok (some x, s1) ∧
      stateA.node_store_.find x = some nodex ∧
      nodex.is_evictable_ = true ∧ nodex.history_ = [tx] ∧
      ∀ g nodeg tg, g ≠ x → stateA.node_store_.find g = some nodeg →
        nodeg.is_evictable_ = true → nodeg.history_ = [tg] → tx < tg := by
  have hone : ∀ f node, stateA.node_store_.find f = some node → node.is_evictable_ = true →
      node.history_.length = 1 := by
    intro f node hf _
    simp only [stateA, NodeStore.find] at hf
    split_ifs at hf <;> cases hf <;> rfl
  exact ⟨⟨le_refl 2, stateA_reachable, by decide, ⟨1, ⟨[0], 2, 1, true⟩, by decide, rfl⟩,
      hone⟩,
    C12_evict_single_access_lru.1 7 2 0 3 stateA (le_refl 2) stateA_reachable (by decide)
      ⟨1, ⟨[0], 2, 1, true⟩, by decide, rfl⟩ hone⟩

/-! ## Independence of the iteration order -/

theorem NodeStore.erase_eq_filter (m : NodeStore) (f : frame_id_t) :
    m.erase f = m.filter (fun p => !decide (p.1 = f)) := by
  induction m with
  | nil => rfl
  | cons q rest ih =>
    obtain ⟨g, n0⟩ := q
    by_cases hg : g = f
    · simp [NodeStore.erase, hg, ih]
    · simp [NodeStore.erase, hg, ih]

theorem NodeStore.erase_perm {m m1 : NodeStore} (hp : m1.Perm m) (f : frame_id_t) :
    (m1.erase f).Perm (m.erase f) := by
  rw [NodeStore.erase_eq_filter, NodeStore.erase_eq_filter]
  exact hp.filter _

/-- Two evictable entries that are both best in the sense of the loop of `Evict` are the
entry of one frame, as long as the clock has not wrapped around. -/
theorem LRUKReplacer.victim_unique {t0 n : Nat} {s : LRUKReplacer}
    (hst : Stamped t0 n s) (hn : t0 + n < 2 ^ 64) {x y : frame_id_t} {nodex nodey : LRUKNode}
    {ex ey : Nat} (hx : (x, nodex) ∈ s.node_store_) (hy : (y, nodey) ∈ s.node_store_)
    (hxe : nodex.end_ = some ex) (hye : nodey.end_ = some ey)
    (h1 : LRUKReplacer.kDist s.k_ s.current_timestamp_ nodey ey
        ≤ LRUKReplacer.kDist s.k_ s.current_timestamp_ nodex ex ∧
      (LRUKReplacer.kDist s.k_ s.current_timestamp_ nodey ey = INF → ex ≤ ey))
    (h2 : LRUKReplacer.kDist s.k_ s.current_timestamp_ nodex ex
        ≤ LRUKReplacer.kDist s.k_ s.current_timestamp_ nodey ey ∧
      (LRUKReplacer.kDist s.k_ s.current_timestamp_ nodex ex = INF → ey ≤ ex)) :
    x = y := by
  have ht : s.current_timestamp_ < 2 ^ 64 := by rw [hst.clock_eq]; exact hn
  have hxm : ex ∈ nodex.history_ := List.mem_of_getLast?_eq_some hxe
  have hym : ey ∈ nodey.history_ := List.mem_of_getLast?_eq_some hye
  have hxl : ex < s.current_timestamp_ := hst.stamp_lt _ hx ex hxm
  have hyl : ey < s.current_timestamp_ := hst.stamp_lt _ hy ey hym
  have heq : ex = ey := by
    by_cases hinf : LRUKReplacer.kDist s.k_ s.current_timestamp_ nodex ex = INF
    · have hinf2 : LRUKReplacer.kDist s.k_ s.current_timestamp_ nodey ey = INF := by
        have := LRUKReplacer.kDist_le s.k_ s.current_timestamp_ ey nodey
        omega
      have a := h1.2 hinf2
      have b := h2.2 hinf
      omega
    · have hd : LRUKReplacer.kDist s.k_ s.current_timestamp_ nodex ex
          = LRUKReplacer.kDist s.k_ s.current_timestamp_ nodey ey := by omega
      have hfx : nodex.size = s.k_ := by
        by_contra hc
        exact hinf (by simp only [LRUKReplacer.kDist, hc, if_false])
      have hfy : nodey.size = s.k_ := by
        by_contra hc
        have : LRUKReplacer.kDist s.k_ s.current_timestamp_ nodey ey = INF := by
          simp only [LRUKReplacer.kDist, hc, if_false]
        exact hinf (by omega)
      simp only [LRUKReplacer.kDist, hfx, hfy, if_true] at hd
      omega
  subst heq
  exact hst.unique _ hx _ hy ex hxm hym

/-- C18: in a reachable state, as long as the 64-bit clock has not wrapped around, `Evict`
returns the same frame, and leaves the same records, clock and Size(), for every order in
which the loop goes through the entries of the map. -/
theorem C18_evict_order_independent (num_frames k t0 n : Nat) (s : LRUKReplacer)
    (_hk : 1 ≤ k) (h : Reachable num_frames k t0 n s) (hn : t0 + n < 2 ^ 64)
    (store : NodeStore) (hp : store.Perm s.node_store_) :
    ∃ r s1 s2, s.Evict = .ok (r, s1) ∧
      ({ s with node_store_ := store } : LRUKReplacer).Evict = .ok (r, s2) ∧
      s2.node_store_.Perm s1.node_store_ ∧
      (∀ g, s2.node_store_.find g = s1.node_store_.find g) ∧
      s2.current_timestamp_ = s1.current_timestamp_ ∧ s2.Size = s1.Size ∧
      s2.k_ = s1.k_ ∧ s2.replacer_size_ = s1.replacer_size_ := by
  have hw := h.wellFormed
  have hst := h.stamped hn
  have hw2 := hw.rehash hp
  have hst2 := hst.of_rehash hp
  by_cases hev : ∃ p ∈ s.node_store_, p.2.is_evictable_ = true
  · have hev2 : ∃ p ∈ store, p.2.is_evictable_ = true := by
      obtain ⟨p, hp1, hp2⟩ := hev
      exact ⟨p, hp.mem_iff.2 hp1, hp2⟩
    obtain ⟨x, nodex, ex, s1, a1, a2, hxe, a4, a5⟩ :=
      LRUKReplacer.Evict_best hw hst hn hev
    obtain ⟨y, nodey, ey, s2, b1, b2, hye, b4, b5⟩ :=
      LRUKReplacer.Evict_best hw2 hst2 hn hev2
    obtain ⟨_, _, _, hs1⟩ := LRUKReplacer.Evict_victim hw a1
    obtain ⟨_, _, _, hs2⟩ := LRUKReplacer.Evict_victim hw2 b1
    have hxm := NodeStore.mem_of_find_eq_some a2
    have hym : (y, nodey) ∈ s.node_store_ := hp.mem_iff.1 (NodeStore.mem_of_find_eq_some b2)
    have hxy : x = y :=
      LRUKReplacer.victim_unique hst hn hxm hym a4 b4
        (a5 _ hym hye ey b4) (b5 _ (hp.mem_iff.2 hxm) hxe ex a4)
    subst hxy
    refine ⟨some x, s1, s2, a1, b1, ?_, ?_, ?_, ?_, ?_, ?_⟩
    · rw [hs1, hs2]
      exact NodeStore.erase_perm hp x
    · intro g
      rw [hs1, hs2]
      exact NodeStore.find_perm (NodeStore.keys_erase_nodup x hw.keys_nodup)
        (NodeStore.erase_perm hp x) g
    · rw [hs1, hs2]
    · rw [LRUKReplacer.Size, LRUKReplacer.Size, hs1, hs2]
    · rw [hs1, hs2]
    · rw [hs1, hs2]
  · have h0 : s.curr_size_ = 0 := by
      rw [hw.size_eq]
      apply List.countP_eq_zero.2
      intro p hp1 hp2
      exact hev ⟨p, hp1, hp2⟩
    refine ⟨none, s, { s with node_store_ := store }, ?_, ?_, hp, ?_, rfl, rfl, rfl, rfl⟩
    · simp only [LRUKReplacer.Evict, h0, if_true]
    · simp only [LRUKReplacer.Evict, h0, if_true]
    · intro g
      exact NodeStore.find_perm hw.keys_nodup hp g

theorem C18_evict_order_independent_witness :
    (1 ≤ 2 ∧ Reachable 7 2 0 4 stateB ∧ 0 + 4 < 2 ^ 64 ∧
      List.Perm [(2, (⟨[3, 1], 2, 2, true⟩ : LRUKNode)), (1, ⟨[2, 0], 2, 1, true⟩)]
        stateB.node_store_) ∧
    ∃ r s1 s2, stateB.Evict = .ok (r, s1) ∧
      ({ stateB with node_store_ := [(2, ⟨[3, 1], 2, 2, true⟩), (1, ⟨[2, 0], 2, 1, true⟩)] } :
        LRUKReplacer).Evict = .ok (r, s2) ∧
      s2.node_store_.Perm s1.node_store_ ∧
      (∀ g, s2.node_store_.find g = s1.node_store_.find g) ∧
      s2.current_timestamp_ = s1.current_timestamp_ ∧ s2.Size = s1.Size ∧
      s2.k_ = s1.k_ ∧ s2.replacer_size_ = s1.replacer_size_ :=
  ⟨⟨by decide, stateB_reachable, by decide, List.Perm.swap _ _ _⟩,
    C18_evict_order_independent 7 2 0 4 stateB (by decide) stateB_reachable (by decide)
      [(2, ⟨[3, 1], 2, 2, true⟩), (1, ⟨[2, 0], 2, 1, true⟩)] (List.Perm.swap _ _ _)⟩

/-! ## The value that `AddElem` offers to a register -/

namespace HyperLogLog

/-- The loop of `PositionOfLeftmostOne` returns 0 when none of the bits it tests is set, and
otherwise a position between `BITSET_CAPACITY - m + 1` and `BITSET_CAPACITY`. -/
theorem leftmostFrom_cases (bset m : Nat) (hm : m ≤ 64) :
    (leftmostFrom bset m = 0 ∧ ∀ i, i < m → bset.testBit i = false) ∨
    (64 - m < leftmostFrom bset m ∧ leftmostFrom bset m ≤ 64 ∧
      ∃ i, i < m ∧ bset.testBit i = true) := by
  induction m with
  | zero => exact Or.inl ⟨rfl, fun i hi => absurd hi (Nat.not_lt_zero i)⟩
  | succ m ih =>
    cases hb : bset.testBit m with
    | true =>
      right
      simp only [leftmostFrom, hb, if_true, BITSET_CAPACITY]
      exact ⟨by omega, by omega, m, Nat.lt_succ_self m, hb⟩
    | false =>
      have hred : leftmostFrom bset (m + 1) = leftmostFrom bset m := by
        simp [leftmostFrom, hb]
      rw [hred]
      rcases ih (by omega) with ⟨h0, hall⟩ | ⟨h1, h2, i, hi, hbit⟩
      · left
        refine ⟨h0, ?_⟩
        intro i hi
        rcases Nat.lt_succ_iff_lt_or_eq.1 hi with h | h
        · exact hall i h
        · rw [h]
          exact hb
      · right
        exact ⟨by omega, h2, i, Nat.lt_succ_of_lt hi, hbit⟩

/-- When one of the low `64 - n_bits_` bits of the hash is set, the value offered to the
register is between 1 and `64 - n_bits_`. -/
theorem offered_of_bit_set (n_bits_ h : Nat) (hn : n_bits_ < 64)
    (hbit : ∃ i, i < 64 - n_bits_ ∧ h.testBit i = true) :
    1 ≤ offered n_bits_ h ∧ offered n_bits_ h ≤ 64 - n_bits_ := by
  obtain ⟨i, hi, hb⟩ := hbit
  rcases leftmostFrom_cases h (64 - n_bits_) (by omega) with ⟨_, hall⟩ | ⟨h1, h2, _⟩
  · rw [hall i hi] at hb
    cases hb
  · simp only [offered, PositionOfLeftmostOne, ComputeBinary, BITSET_CAPACITY]
    omega

/-- When none of the low `64 - n_bits_` bits of the hash is set and `n_bits_` is not zero,
the subtraction wraps around: the value offered to the register is `2 ^ 64 - n_bits_`. -/
theorem offered_of_no_bit_set (n_bits_ h : Nat) (hn0 : 1 ≤ n_bits_) (hn : n_bits_ < 64)
    (hbit : ∀ i, i < 64 - n_bits_ → h.testBit i = false) :
    offered n_bits_ h = 2 ^ 64 - n_bits_ := by
  rcases leftmostFrom_cases h (64 - n_bits_) (by omega) with ⟨h0, _⟩ | ⟨_, _, i, hi, hb⟩
  · simp only [offered, PositionOfLeftmostOne, ComputeBinary, BITSET_CAPACITY, h0]
    omega
  · rw [hbit i hi] at hb
    cases hb

end HyperLogLog

/-- C20 fails on the code: with `n_bits = 1` and a hash whose low 63 bits are zero, here the
hash 0, `PositionOfLeftmostOne` returns 0 and the unsigned difference `msb - n_bits_` wraps
around to `2 ^ 64 - 1`, which is not at most `64 - 1`; after `AddElem` on zeroed registers
the selected register holds that value. -/
theorem C20_offered_value_wraps :
    HyperLogLog.PositionOfLeftmostOne 1 (HyperLogLog.ComputeBinary 0) = 0 ∧
    HyperLogLog.offered 1 0 = 18446744073709551615 ∧
    ¬ (HyperLogLog.offered 1 0 ≤ 64 - 1) ∧
    (HyperLogLog.new 1).bind (fun hll => hll.AddElem 0)
      = some ⟨1, [18446744073709551615, 0], 0⟩ := by
  refine ⟨by decide, by decide, by decide, by decide⟩

end bustub
